import Mathlib

/-!
Verification of the ORF discovery stage of ORF-RATER against its two scripts,
`src/find_orfs.py` and `src/find_ORFs.py`.  Pure string scanning, per-family row
construction, deduplication/naming and the startup checks are embedded as executable
Lean functions; the external collaborators (the yeti coordinate translator, the IUPAC
table of the yeti library, pandas concatenation) are modeled at their interfaces as the
spec describes them.  Machine-width casts to numpy `u4` are lossless for genomic
coordinates and are modeled as identities, except for the genomic stop: the
strand-conditional `- 1` is stored into a `u4` array and therefore wraps modulo
`2 ^ 32`, which the model reproduces.  The ValueError that `np.vstack` raises on a
ragged group of footprint slices is modeled as an error result of the family
resolver.
-/

namespace FindOrfs

/-- Python slice `s[a:b]` (with nonnegative bounds) on strings represented as lists of
characters. -/
def seqSlice (s : List Char) (a b : Nat) : List Char := (s.take b).drop a

/-- The three stop-codon alternatives `TAG|TAA|TGA` of `STOP_RE`
(src/find_orfs.py:51, src/find_ORFs.py:40). -/
def isStopCodon (w : List Char) : Bool :=
  w == ['T', 'A', 'G'] || w == ['T', 'A', 'A'] || w == ['T', 'G', 'A']

/-- Fuel-driven scan for the first in-frame stop codon at or after position `j`; the
fuel only serves structural termination and is always supplied large enough. -/
def findStopRec (s : List Char) : Nat → Nat → Option Nat
  | 0, _ => none
  | n + 1, j =>
    if j + 3 ≤ s.length then
      if isStopCodon (seqSlice s j (j + 3)) then some (j + 3)
      else findStopRec s n (j + 3)
    else none

/-- `STOP_RE.match(myseq[j:])` with `STOP_RE = (?:...)*?(?:TAG|TAA|TGA)`: the lazy
repetition finds the smallest in-frame offset at which a full stop codon fits, and we
return the absolute index one past that stop codon (`m.end() + j`), or `none` when the
regex does not match.  The regex dot is modeled as matching any character, which is
exact on the upper-cased nucleotide strings the matcher is invoked on (they contain no
newline). -/
def findStopFrom (s : List Char) (j : Nat) : Option Nat :=
  findStopRec s (s.length + 1) j

/-- `_find_all_orfs` (src/find_orfs.py:69-82), textually identical to `find_all_ORFs`
(src/find_ORFs.py:73-86).  `startB` stands for `START_RE.match` applied to a
three-character window; the boolean abstracts the compiled alternation of
three-character codon patterns. -/
def find_all_orfs (startB : List Char → Bool) (s : List Char) :
    List (Nat × Nat × List Char) :=
  (List.range (s.length - 2)).filterMap fun i =>
    if startB (seqSlice s i (i + 3)) then
      some (i, (findStopFrom s i).getD 0, seqSlice s i (i + 3))
    else none

/-- Modelled from the spec: `IUPAC_TABLE_DNA`, the recognized nucleotide alphabet
including ambiguity codes, lives in the external yeti library (imported at
src/find_orfs.py:5) and is not under src/.  Per spec §4.1/§6 each code expands to the
set of bases it stands for (e.g. "NTG" expands to any base in the first position);
`none` means the character is not in the recognized alphabet. -/
def iupacBases : Char → Option (List Char)
  | 'A' => some ['A']
  | 'C' => some ['C']
  | 'G' => some ['G']
  | 'T' => some ['T']
  | 'R' => some ['A', 'G']
  | 'Y' => some ['C', 'T']
  | 'S' => some ['C', 'G']
  | 'W' => some ['A', 'T']
  | 'K' => some ['G', 'T']
  | 'M' => some ['A', 'C']
  | 'B' => some ['C', 'G', 'T']
  | 'D' => some ['A', 'G', 'T']
  | 'H' => some ['A', 'C', 'T']
  | 'V' => some ['A', 'C', 'G']
  | 'N' => some ['A', 'C', 'G', 'T']
  | _ => none

/-- The start-codon validity test of src/find_orfs.py:37-39 and src/find_ORFs.py:36-38:
`len(codon) != 3 or any(x not in IUPAC_TABLE_DNA for x in codon.upper())` raises;
a codon is valid when it has exactly three symbols, each (upper-cased) drawn from the
recognized alphabet. -/
def isValidCodon (codon : List Char) : Bool :=
  codon.length == 3 && codon.all fun x => (iupacBases x.toUpper).isSome

/-- Modelled from the spec: `seq_to_regex('|'.join(opts.codons))` of the external yeti
library compiles the configured codons into an alternation of three-character-class
patterns; matching the compiled pattern against a three-character window succeeds when
some configured codon matches the window position by position through the ambiguity
table. -/
def startMatch (codons : List (List Char)) (w : List Char) : Bool :=
  codons.any fun p => p.length == w.length &&
    (p.zip w).all fun pc => ((iupacBases pc.1).getD []).contains pc.2

/-- A transcript at the interface the scripts consume (spec §3): identifier, stranded
genomic-position list (exposed by the external coordinate translator), upper-cased
spliced sequence, and the optionally annotated CDS start/end offsets used only by the
annotation-aware variant. -/
structure Transcript where
  tid : String
  pos : List Nat
  seq : List Char
  cds : Option (Nat × Nat) := none
deriving DecidableEq, Repr

/-- Coordinate Translator (external collaborator, spec §2): yeti's
`Transcript.get_genomic_coordinate(x)[1]` returns the genomic coordinate of the `x`-th
transcript-local nucleotide, i.e. indexes the transcript's stranded genomic-position
list. -/
def get_genomic_coordinate (tr : Transcript) (off : Nat) : Nat := tr.pos.getD off 0

/-- One row of the per-family table built at src/find_orfs.py:120-130, fields in
source column order.  `gstop` carries the value actually stored into the `u4` array
`gstops` of line 114-115, i.e. the strand-conditional arithmetic reduced modulo
`2 ^ 32` (an integer in `[0, 2^32)`, or `0` when no stop codon was found); the other
numeric columns are lossless `u4` casts. -/
structure OrfRow where
  tfam : String
  tid : String
  tcoord : Nat
  tstop : Nat
  chrom : String
  gcoord : Nat
  gstop : Int
  strand : Char
  codon : List Char
  AAlen : Nat
  orfname : String
deriving DecidableEq, Repr

/-- Row construction for one candidate (src/find_orfs.py:111-130):
`gcoords = get_genomic_coordinate(startpos)`, `gstops = np.zeros(..., dtype='u4')`
overwritten where a stop is present by
`get_genomic_coordinate(stop-1) + (strand == '+')*2 - 1`, and `AAlens = 0`
overwritten where a stop is present by `(stop - start)/3 - 1` (integer division).
The assignment into the `u4` array reduces the Python integer modulo `2 ^ 32`, so a
minus-strand stop at translated coordinate 0 stores `2^32 - 1`. -/
def mkOrfRow (tfam chrom : String) (strand : Char) (tr : Transcript)
    (cand : Nat × Nat × List Char) : OrfRow :=
  { tfam := tfam
    tid := tr.tid
    tcoord := cand.1
    tstop := cand.2.1
    chrom := chrom
    gcoord := get_genomic_coordinate tr cand.1
    gstop := if cand.2.1 > 0 then
        ((get_genomic_coordinate tr (cand.2.1 - 1) : Int) +
          (if strand = '+' then 2 else 0) - 1) % (2 ^ 32)
      else 0
    strand := strand
    codon := cand.2.2
    AAlen := if cand.2.1 > 0 then (cand.2.1 - cand.1) / 3 - 1 else 0
    orfname := "" }

/-- All rows contributed by one member transcript (the loop body at
src/find_orfs.py:101-130), names not yet assigned. -/
def transcriptRows (startB : List Char → Bool) (tfam chrom : String) (strand : Char)
    (tr : Transcript) : List OrfRow :=
  (find_all_orfs startB tr.seq).map (mkOrfRow tfam chrom strand tr)

/-- `np.flatnonzero(tmask[tidx, :])` for
`tmask[tidx, :] = np.in1d(tfam_genpos, curr_trans.get_position_list(stranded=True))`
(src/find_orfs.py:104 and 137): the ordered indices of the family-envelope positions
that the transcript covers. -/
def transcriptMaskIdx (genpos : List Nat) (tr : Transcript) : List Nat :=
  (List.range genpos.length).filter fun j => decide (genpos.getD j 0 ∈ tr.pos)

/-- `np.flatnonzero(tmask[tidx_lookup[tid], :])[tcoord:tstop]`
(src/find_orfs.py:137-138): the exact genomic footprint of one row, as a list of
family-envelope indices. -/
def rowSlice (genpos : List Nat) (trs : List Transcript) (r : OrfRow) : List Nat :=
  match trs.find? (fun t => t.tid == r.tid) with
  | some t => ((transcriptMaskIdx genpos t).take r.tstop).drop r.tcoord
  | none => []

/-- `_name_orf` (src/find_orfs.py:85-87): the base name `'%s_%d_%daa'`. -/
def name_orf (tfam : String) (gcoord AAlen : Nat) : String :=
  tfam ++ "_" ++ toString gcoord ++ "_" ++ toString AAlen ++ "aa"

/-- Fuel-driven computation of the distinct elements of a list in order of first
occurrence; the fuel only serves structural termination. -/
def firstOccsRec [DecidableEq α] : Nat → List α → List α
  | 0, _ => []
  | _, [] => []
  | n + 1, a :: l => a :: firstOccsRec n (l.filter fun b => decide (b ≠ a))

/-- The distinct elements of a list in order of first occurrence: the order in which
the while-loop at src/find_orfs.py:145-149 encounters new position sets (each pass
names the cluster of the first still-unnamed row). -/
def firstOccs [DecidableEq α] (l : List α) : List α := firstOccsRec l.length l

/-- The name given to row `r` by the grouping/naming pass at src/find_orfs.py:133-149:
rows are grouped by (gcoord, AAlen); a singleton group gets the base name; a group
whose footprints all coincide gets the base name; otherwise each cluster of identical
footprints gets the base name suffixed with `_k`, `k` counting clusters in discovery
order. -/
def assignName (tfam : String) (genpos : List Nat) (trs : List Transcript)
    (rows : List OrfRow) (r : OrfRow) : String :=
  let grp := rows.filter fun r2 => decide (r2.gcoord = r.gcoord) && decide (r2.AAlen = r.AAlen)
  let base := name_orf tfam r.gcoord r.AAlen
  if grp.length = 1 then base
  else
    let sets := grp.map (rowSlice genpos trs)
    if sets.all fun x => decide (x = sets.headD []) then base
    else base ++ "_" ++ toString ((firstOccs sets).indexOf (rowSlice genpos trs r))

/-- The per-family input as the scripts consume it (spec §4.2): family id, chromosome,
strand, stranded genomic-position envelope (from the family BED record via the external
SegmentChain), and the member transcripts. -/
structure FamilyIn where
  tfam : String
  chrom : String
  strand : Char
  genpos : List Nat
  trs : List Transcript
deriving DecidableEq, Repr

/-- The shape requirement of the per-group `np.vstack` at src/find_orfs.py:137-138:
within every (gcoord, AAlen) group of more than one row, all footprint slices must
have the same length, since only 1-D arrays of equal size stack into a matrix.  A
group mixing lengths — a stopless row (empty slice `[tcoord:0]`) grouped with a
stop-bearing row of slice length `3*(AAlen+1)` — is ragged and makes `np.vstack`
raise ValueError. -/
def vstackOk (genpos : List Nat) (trs : List Transcript) (rows : List OrfRow) : Bool :=
  rows.all fun r =>
    (rows.filter fun r2 => decide (r2.gcoord = r.gcoord) &&
        decide (r2.AAlen = r.AAlen)).length == 1 ||
    (rows.filter fun r2 => decide (r2.gcoord = r.gcoord) &&
        decide (r2.AAlen = r.AAlen)).all fun r2 =>
      (rowSlice genpos trs r2).length == (rowSlice genpos trs r).length

/-- `_identify_tfam_orfs` (src/find_orfs.py:90-152): build all rows of the family,
then fill in `orfname` per row; return `none` (the absence signal, line 152) when no
member transcript yields any candidate.  When some ambiguous (gcoord, AAlen) group is
ragged, the `np.vstack` at lines 137-138 raises ValueError and the exception leaves
the function before any table is returned, so the shape check is modeled as a guard
on the whole naming pass: with every group stackable, the group loop of lines 133-149
runs to completion and is modeled pointwise by `assignName`. -/
def identify_tfam_orfs (startB : List Char → Bool) (fam : FamilyIn) :
    Except String (Option (List OrfRow)) :=
  let rows := fam.trs.flatMap (transcriptRows startB fam.tfam fam.chrom fam.strand)
  if rows.isEmpty then Except.ok none
  else if vstackOk fam.genpos fam.trs rows then
    Except.ok (some (rows.map fun r =>
      { r with orfname := assignName fam.tfam fam.genpos fam.trs rows r }))
  else Except.error "ValueError"

/-- pandas.concat applied to the per-family results (src/find_orfs.py:158), modeled at
the interface of the external pandas library per its documented contract: `None`
entries are dropped silently, but an empty input raises
ValueError("No objects to concatenate") and an all-None input raises
ValueError("All objects passed were None"). -/
def pd_concat (dfs : List (Option (List OrfRow))) : Except String (List OrfRow) :=
  if dfs.isEmpty then Except.error "No objects to concatenate"
  else if dfs.all Option.isNone then Except.error "All objects passed were None"
  else Except.ok (dfs.filterMap id).flatten

deriving instance DecidableEq for Except

/-- The pool map of src/find_orfs.py:157-158: the workers' results are collected in
order, and an exception raised inside a worker (the ValueError of a ragged
`np.vstack`) propagates through `Pool.map` and aborts the whole run (spec §5, §7(d)),
before `pd.concat` is reached. -/
def collectResults (startB : List Char → Bool) :
    List FamilyIn → Except String (List (Option (List OrfRow)))
  | [] => Except.ok []
  | f :: fs =>
    match identify_tfam_orfs startB f with
    | Except.error e => Except.error e
    | Except.ok r =>
      match collectResults startB fs with
      | Except.error e => Except.error e
      | Except.ok rs => Except.ok (r :: rs)

/-- The orchestration of src/find_orfs.py:157-158: map the family resolver over all
families and concatenate the successful results. -/
def run_find_orfs (startB : List Char → Bool) (fams : List FamilyIn) :
    Except String (List OrfRow) :=
  match collectResults startB fams with
  | Except.error e => Except.error e
  | Except.ok dfs => pd_concat dfs

/-- The rows of a successful, non-absent family result; used to name concrete
outputs. -/
def outOf : Except String (Option (List OrfRow)) → List OrfRow
  | Except.ok (some rows) => rows
  | Except.ok none => []
  | Except.error _ => []

/-- The three startup exception kinds of the two scripts: IOError for a pre-existing
output (src/find_orfs.py:34-35), ValueError for a malformed codon
(src/find_orfs.py:37-39, src/find_ORFs.py:36-38), EOFError for an empty transcript
annotation input (src/find_ORFs.py:44-45). -/
inductive StartupErr where
  | ioError
  | valueError
  | eofError
deriving DecidableEq, Repr

/-- Everything src/find_orfs.py checks before per-family processing starts, in source
order: the overwrite check (lines 34-35), then the codon check (lines 37-39).  The
transcriptome BED lines are read into `bedlinedict` (lines 54-55) with no emptiness
check, so `bedIds` is never examined. -/
def find_orfs_precheck (force fileEx : Bool) (codons : List (List Char))
    (_bedIds : List String) : Except StartupErr Unit :=
  if !force && fileEx then Except.error StartupErr.ioError
  else if codons.any (fun c => !isValidCodon c) then Except.error StartupErr.valueError
  else Except.ok ()

/-- Everything src/find_ORFs.py checks before per-family processing starts, in source
order: the codon check (lines 36-38), then the emptiness check on `bedlinedict`
(lines 43-45).  This variant has no overwrite flag and never checks whether the output
path exists, so `fileEx` is never examined. -/
def find_ORFs_precheck (codons : List (List Char)) (_fileEx : Bool)
    (bedIds : List String) : Except StartupErr Unit :=
  if codons.any (fun c => !isValidCodon c) then Except.error StartupErr.valueError
  else if bedIds.isEmpty then Except.error StartupErr.eofError
  else Except.ok ()

/-- The outcome of the per-transcript CDS-consistency step of the annotation-aware
variant: the `annot_cds` flag vector and whether the malformed-CDS warning was
emitted. -/
structure AnnotRes where
  flags : List Bool
  warned : Bool
deriving DecidableEq, Repr

/-- src/find_ORFs.py:111-120: flags are all False when annotations are ignored or the
transcript has none; otherwise `annot_cds = startpos == cds_start`, the runtime
assertion `annot_cds.sum() <= 1` (line 115, an AssertionError aborts the run), and
when the unique flagged candidate's stop differs from `cds_end` the flag is cleared
and a non-fatal warning emitted. -/
def annot_flags (ignoreAnn : Bool) (tr : Transcript)
    (cands : List (Nat × Nat × List Char)) : Except String AnnotRes :=
  if ignoreAnn || tr.cds.isNone then Except.ok ⟨cands.map fun _ => false, false⟩
  else
    let cs := (tr.cds.getD (0, 0)).1
    let ce := (tr.cds.getD (0, 0)).2
    let ac := cands.map fun c => decide (c.1 = cs)
    if 1 < ac.count true then Except.error "AssertionError"
    else if ac.count true = 1 then
      let idx := ac.indexOf true
      if (cands.getD idx (0, 0, [])).2.1 ≠ ce then Except.ok ⟨ac.set idx false, true⟩
      else Except.ok ⟨ac, false⟩
    else Except.ok ⟨ac, false⟩

/-- One row of the annotation-aware variant's table (src/find_ORFs.py:131-142): the
same columns plus the `annot` flag. -/
structure OrfRowA extends OrfRow where
  annot : Bool
deriving DecidableEq, Repr

/-- The per-transcript body of `identify_tfam_ORFs` (src/find_ORFs.py:101-142):
candidates, the CDS-consistency step, and the assembled rows together with whether the
warning fired; an AssertionError propagates. -/
def transcriptRowsA (startB : List Char → Bool) (ignoreAnn : Bool)
    (tfam chrom : String) (strand : Char) (tr : Transcript) :
    Except String (List OrfRowA × Bool) :=
  let cands := find_all_orfs startB tr.seq
  match annot_flags ignoreAnn tr cands with
  | Except.error e => Except.error e
  | Except.ok res =>
      Except.ok ((cands.zip res.flags).map fun p =>
        { toOrfRow := mkOrfRow tfam chrom strand tr p.1, annot := p.2 }, res.warned)

/-! Lemmas about the stop-codon search. -/

/-- The specification of the transcript-local `stop` value of a candidate, in the
words of the spec: the index immediately after the first in-frame stop codon scanning
forward from `i` in steps of three, or `0` if no in-frame stop codon fits before the
sequence ends. -/
def stopSpec (s : List Char) (i stp : Nat) : Prop :=
  (stp = 0 ∧ ∀ k, i + 3 * k + 3 ≤ s.length →
      isStopCodon (seqSlice s (i + 3 * k) (i + 3 * k + 3)) = false) ∨
  (∃ k, stp = i + 3 * k + 3 ∧ stp ≤ s.length ∧
      isStopCodon (seqSlice s (i + 3 * k) (i + 3 * k + 3)) = true ∧
      ∀ m, m < k → isStopCodon (seqSlice s (i + 3 * m) (i + 3 * m + 3)) = false)

theorem findStopRec_some (s : List Char) :
    ∀ n j e, findStopRec s n j = some e →
      ∃ k, e = j + 3 * k + 3 ∧ e ≤ s.length ∧
        isStopCodon (seqSlice s (j + 3 * k) (j + 3 * k + 3)) = true ∧
        ∀ m, m < k → isStopCodon (seqSlice s (j + 3 * m) (j + 3 * m + 3)) = false := by
  intro n
  induction n with
  | zero =>
    intro j e h
    exact absurd h (by simp [findStopRec])
  | succ n ih =>
    intro j e h
    simp only [findStopRec] at h
    split at h
    next hj =>
      split at h
      next hstop =>
        have he : j + 3 = e := Option.some.inj h
        refine ⟨0, by omega, by omega, ?_, by omega⟩
        have h30 : j + 3 * 0 = j := by omega
        have h33 : j + 3 * 0 + 3 = j + 3 := by omega
        rw [h30, h33]
        exact hstop
      next hstop =>
        simp only [Bool.not_eq_true] at hstop
        obtain ⟨k, hk1, hk2, hk3, hk4⟩ := ih (j + 3) e h
        refine ⟨k + 1, by omega, hk2, ?_, ?_⟩
        · have ha : j + 3 * (k + 1) = j + 3 + 3 * k := by omega
          rw [ha]
          exact hk3
        · intro m hm
          cases m with
          | zero =>
            have h30 : j + 3 * 0 = j := by omega
            have h33 : j + 3 * 0 + 3 = j + 3 := by omega
            rw [h30, h33]
            exact hstop
          | succ m' =>
            have ha : j + 3 * (m' + 1) = j + 3 + 3 * m' := by omega
            rw [ha]
            exact hk4 m' (by omega)
    next hj =>
      exact absurd h (by simp)

theorem findStopRec_none (s : List Char) :
    ∀ n j, s.length - j ≤ n → findStopRec s n j = none →
      ∀ k, j + 3 * k + 3 ≤ s.length →
        isStopCodon (seqSlice s (j + 3 * k) (j + 3 * k + 3)) = false := by
  intro n
  induction n with
  | zero =>
    intro j hle h k hk
    omega
  | succ n ih =>
    intro j hle h k hk
    simp only [findStopRec] at h
    split at h
    next hj =>
      split at h
      next hstop => exact absurd h (by simp)
      next hstop =>
        simp only [Bool.not_eq_true] at hstop
        cases k with
        | zero =>
          have h30 : j + 3 * 0 = j := by omega
          have h33 : j + 3 * 0 + 3 = j + 3 := by omega
          rw [h30, h33]
          exact hstop
        | succ k' =>
          have harith : j + 3 * (k' + 1) = j + 3 + 3 * k' := by omega
          rw [harith] at hk ⊢
          exact ih (j + 3) (by omega) h k' hk
    next hj =>
      omega

theorem findStopFrom_some (s : List Char) (j e : Nat)
    (h : findStopFrom s j = some e) :
    ∃ k, e = j + 3 * k + 3 ∧ e ≤ s.length ∧
      isStopCodon (seqSlice s (j + 3 * k) (j + 3 * k + 3)) = true ∧
      ∀ m, m < k → isStopCodon (seqSlice s (j + 3 * m) (j + 3 * m + 3)) = false :=
  findStopRec_some s (s.length + 1) j e h

theorem findStopFrom_none (s : List Char) (j : Nat) (h : findStopFrom s j = none) :
    ∀ k, j + 3 * k + 3 ≤ s.length →
      isStopCodon (seqSlice s (j + 3 * k) (j + 3 * k + 3)) = false :=
  findStopRec_none s (s.length + 1) j (by omega) h

/-- The value the scripts store for `stop` satisfies the spec of the first in-frame
stop. -/
theorem stopSpec_of_findStopFrom (s : List Char) (i : Nat) :
    stopSpec s i ((findStopFrom s i).getD 0) := by
  cases h : findStopFrom s i with
  | none =>
    left
    exact ⟨rfl, fun k hk => findStopFrom_none s i h k hk⟩
  | some e =>
    right
    simpa using findStopFrom_some s i e h

/-- The spec of the stop value determines it uniquely. -/
theorem stopSpec_unique (s : List Char) (i a b : Nat)
    (ha : stopSpec s i a) (hb : stopSpec s i b) : a = b := by
  rcases ha with ⟨ha0, haall⟩ | ⟨k, hk1, hk2, hk3, hk4⟩ <;>
    rcases hb with ⟨hb0, hball⟩ | ⟨k', hk1', hk2', hk3', hk4'⟩
  · omega
  · exact absurd hk3' (by rw [haall k' (by omega)]; simp)
  · exact absurd hk3 (by rw [hball k (by omega)]; simp)
  · rcases Nat.lt_trichotomy k k' with hlt | heq | hgt
    · exact absurd hk3 (by rw [hk4' k hlt]; simp)
    · omega
    · exact absurd hk3' (by rw [hk4 k' hgt]; simp)

/-! Lemmas about the candidate scan. -/

/-- Membership characterization of the scan result (src/find_orfs.py:75-82): the
candidates are exactly the triples `(i, stop-or-0, window)` over start indices whose
three-character window matches the start pattern, with the window slice required to be
a full codon (`i` ranges over `range(len(myseq)-2)`). -/
theorem mem_find_all_orfs (startB : List Char → Bool) (s : List Char)
    (i stp : Nat) (c : List Char) :
    (i, stp, c) ∈ find_all_orfs startB s ↔
      i + 3 ≤ s.length ∧ startB (seqSlice s i (i + 3)) = true ∧
        c = seqSlice s i (i + 3) ∧ stp = (findStopFrom s i).getD 0 := by
  unfold find_all_orfs
  rw [List.mem_filterMap]
  constructor
  · rintro ⟨a, ha, hEq⟩
    rw [List.mem_range] at ha
    by_cases hB : startB (seqSlice s a (a + 3)) = true
    · rw [if_pos hB] at hEq
      have h2 : (a, (findStopFrom s a).getD 0, seqSlice s a (a + 3)) = (i, stp, c) :=
        Option.some.inj hEq
      have hai : a = i := congrArg Prod.fst h2
      subst hai
      have h3 : ((findStopFrom s a).getD 0, seqSlice s a (a + 3)) = (stp, c) :=
        congrArg Prod.snd h2
      have hstp : (findStopFrom s a).getD 0 = stp := congrArg Prod.fst h3
      have hc : seqSlice s a (a + 3) = c := congrArg Prod.snd h3
      exact ⟨by omega, hB, hc.symm, hstp.symm⟩
    · rw [if_neg hB] at hEq
      exact absurd hEq (by simp)
  · rintro ⟨hlen, hB, rfl, rfl⟩
    exact ⟨i, List.mem_range.mpr (by omega), by rw [if_pos hB]⟩

/-- Each start index yields at most one element of a `filterMap` whose function tags
results with the input index, when the index list has no duplicates. -/
theorem countP_fst_filterMap {β : Type} (l : List Nat) (hnd : l.Nodup)
    (f : Nat → Option (Nat × β)) (hf : ∀ a e, f a = some e → e.1 = a) (i : Nat) :
    ((l.filterMap f).countP fun e => decide (e.1 = i)) =
      if i ∈ l ∧ (f i).isSome then 1 else 0 := by
  induction l with
  | nil => simp
  | cons a t ih =>
    rw [List.nodup_cons] at hnd
    obtain ⟨hani, hnd'⟩ := hnd
    have hzero : i ∉ t → ((t.filterMap f).countP fun e => decide (e.1 = i)) = 0 := by
      intro hit
      rw [List.countP_eq_zero]
      intro e he
      obtain ⟨x, hx, hfx⟩ := List.mem_filterMap.mp he
      have hx1 : e.1 = x := hf x e hfx
      simp only [decide_eq_true_eq]
      intro hei
      have hxi : x = i := by omega
      exact hit (hxi ▸ hx)
    by_cases hia : i = a
    · subst hia
      cases hfb : f i with
      | none =>
        simp only [List.filterMap_cons, hfb]
        rw [ih hnd', if_neg (fun h => hani h.1)]
        rw [if_neg (fun h => absurd h.2 (by simp))]
      | some b =>
        simp only [List.filterMap_cons, hfb]
        rw [List.countP_cons, hzero hani]
        have hb1 : b.1 = i := hf i b hfb
        have hcond : i ∈ i :: t ∧ (some b : Option (Nat × β)).isSome = true :=
          ⟨List.mem_cons_self i t, rfl⟩
        rw [if_pos hcond]
        simp [hb1]
    · have hgoal : (if i ∈ a :: t ∧ (f i).isSome then (1 : Nat) else 0) =
          (if i ∈ t ∧ (f i).isSome then (1 : Nat) else 0) := by
        by_cases h : i ∈ t ∧ (f i).isSome
        · rw [if_pos ⟨List.mem_cons_of_mem a h.1, h.2⟩, if_pos h]
        · rw [if_neg (fun hh => by
            rcases List.mem_cons.mp hh.1 with h1 | h1
            · exact hia h1
            · exact h ⟨h1, hh.2⟩), if_neg h]
      rw [hgoal]
      cases hfb : f a with
      | none =>
        simp only [List.filterMap_cons, hfb]
        exact ih hnd'
      | some b =>
        simp only [List.filterMap_cons, hfb]
        rw [List.countP_cons, ih hnd']
        have hb1 : b.1 = a := hf a b hfb
        have hfalse : decide (b.1 = i) = false := by
          simp only [decide_eq_false_iff_not]
          rw [hb1]
          exact fun h => hia h.symm
        rw [hfalse]
        simp

/-- The scan reports exactly one candidate at each start index whose window matches,
and none elsewhere. -/
theorem count_start_find_all_orfs (startB : List Char → Bool) (s : List Char)
    (i : Nat) :
    ((find_all_orfs startB s).countP fun e => decide (e.1 = i)) =
      if i + 3 ≤ s.length ∧ startB (seqSlice s i (i + 3)) = true then 1 else 0 := by
  unfold find_all_orfs
  rw [countP_fst_filterMap (List.range (s.length - 2)) (List.nodup_range _)
    _ (fun a e h => by
      by_cases hB : startB (seqSlice s a (a + 3)) = true
      · rw [if_pos hB] at h
        exact (congrArg Prod.fst (Option.some.inj h)).symm
      · rw [if_neg hB] at h
        exact absurd h (by simp)) i]
  by_cases hlen : i + 3 ≤ s.length
  · have hmem : i ∈ List.range (s.length - 2) := List.mem_range.mpr (by omega)
    by_cases hB : startB (seqSlice s i (i + 3)) = true
    · rw [if_pos ⟨hmem, by rw [if_pos hB]; rfl⟩, if_pos ⟨hlen, hB⟩]
    · rw [if_neg (fun h => by
        have h2 := h.2
        rw [if_neg hB] at h2
        exact absurd h2 (by simp)), if_neg (fun h => hB h.2)]
  · have hmem : i ∉ List.range (s.length - 2) := by
      rw [List.mem_range]
      omega
    rw [if_neg (fun h => hmem h.1), if_neg (fun h => hlen h.1)]

/-! Claim C2 and claim C10: correctness of the codon matcher. -/

/-- Claim C2: for every sequence, the codon matcher returns exactly one candidate
`(start, stop, codon)` for every index `start` with `start + 3 ≤ len(S)` whose
three-base window matches the configured start pattern, where `codon` is that window
and `stop` is the index immediately after the first in-frame stop codon scanning
forward from `start`, or `0` if no in-frame stop codon exists before the sequence
ends; a pattern match beginning at `len(S)-2` or `len(S)-1` is never reported. -/
theorem claim_C2 (startB : List Char → Bool) (s : List Char) :
    (∀ i stp c, (i, stp, c) ∈ find_all_orfs startB s ↔
        (i + 3 ≤ s.length ∧ startB (seqSlice s i (i + 3)) = true ∧
          c = seqSlice s i (i + 3) ∧ stopSpec s i stp)) ∧
    (∀ i, i + 3 ≤ s.length → startB (seqSlice s i (i + 3)) = true →
        ((find_all_orfs startB s).countP fun e => decide (e.1 = i)) = 1) ∧
    (∀ e ∈ find_all_orfs startB s, e.1 + 3 ≤ s.length) := by
  refine ⟨?_, ?_, ?_⟩
  · intro i stp c
    rw [mem_find_all_orfs]
    constructor
    · rintro ⟨h1, h2, h3, h4⟩
      refine ⟨h1, h2, h3, ?_⟩
      rw [h4]
      exact stopSpec_of_findStopFrom s i
    · rintro ⟨h1, h2, h3, h4⟩
      exact ⟨h1, h2, h3, stopSpec_unique s i stp _ h4 (stopSpec_of_findStopFrom s i)⟩
  · intro i h1 h2
    rw [count_start_find_all_orfs, if_pos ⟨h1, h2⟩]
  · rintro ⟨i, stp, c⟩ he
    exact ((mem_find_all_orfs startB s i stp c).mp he).1

theorem claim_C2_witness :
    ((0, 9, "ATG".toList) ∈
        find_all_orfs (startMatch [['A', 'T', 'G']]) "ATGAAATAG".toList) ∧
    ((find_all_orfs (startMatch [['A', 'T', 'G']]) "ATGAAATAG".toList).countP
        fun e => decide (e.1 = 0)) = 1 :=
  ⟨((claim_C2 (startMatch [['A', 'T', 'G']]) "ATGAAATAG".toList).1 0 9
        "ATG".toList).mpr
      ⟨by decide, by decide, by decide,
        Or.inr ⟨2, by decide, by decide, by decide, by decide⟩⟩,
    (claim_C2 (startMatch [['A', 'T', 'G']]) "ATGAAATAG".toList).2.1 0
      (by decide) (by decide)⟩

/-- Claim C10: every candidate with a stop codon spans a positive whole number of
codons: `stop - start` is a positive multiple of three, `stop` does not exceed the
sequence length, and the division in the amino-acid-length formula is exact. -/
theorem claim_C10 (startB : List Char → Bool) (s : List Char) (i stp : Nat)
    (c : List Char) (he : (i, stp, c) ∈ find_all_orfs startB s) (hstp : 0 < stp) :
    (∃ k, 1 ≤ k ∧ stp - i = 3 * k) ∧ stp ≤ s.length ∧
      3 * ((stp - i) / 3) = stp - i := by
  rw [mem_find_all_orfs] at he
  obtain ⟨h1, h2, h3, h4⟩ := he
  cases hf : findStopFrom s i with
  | none =>
    rw [hf] at h4
    simp at h4
    omega
  | some v =>
    rw [hf] at h4
    simp at h4
    obtain ⟨k, hk1, hk2, -, -⟩ := findStopFrom_some s i v hf
    refine ⟨⟨k + 1, by omega, by omega⟩, by omega, by omega⟩

theorem claim_C10_witness :
    (∃ k, 1 ≤ k ∧ 9 - 0 = 3 * k) ∧ 9 ≤ "ATGAAATAG".toList.length ∧
      3 * ((9 - 0) / 3) = 9 - 0 :=
  claim_C10 (startMatch [['A', 'T', 'G']]) "ATGAAATAG".toList 0 9 "ATG".toList
    (by decide) (by decide)

/-! Membership structure of a family's output table. -/

/-- Abbreviation for the concatenated, not-yet-named rows of one family. -/
def famRows (startB : List Char → Bool) (fam : FamilyIn) : List OrfRow :=
  fam.trs.flatMap (transcriptRows startB fam.tfam fam.chrom fam.strand)

theorem identify_eq_some (startB : List Char → Bool) (fam : FamilyIn)
    (out : List OrfRow) (h : identify_tfam_orfs startB fam = Except.ok (some out)) :
    out = (famRows startB fam).map fun r =>
      { r with orfname := assignName fam.tfam fam.genpos fam.trs (famRows startB fam) r } := by
  simp only [identify_tfam_orfs] at h
  by_cases hemp : (famRows startB fam).isEmpty
  · rw [famRows] at hemp
    rw [if_pos hemp] at h
    exact absurd h (by simp)
  · rw [famRows] at hemp
    rw [if_neg hemp] at h
    by_cases hvs : vstackOk fam.genpos fam.trs
        (fam.trs.flatMap (transcriptRows startB fam.tfam fam.chrom fam.strand)) = true
    · rw [if_pos hvs] at h
      have h2 := Option.some.inj (Except.ok.inj h)
      rw [← h2, famRows]
    · rw [if_neg hvs] at h
      exact absurd h (by simp)

theorem mem_famRows (startB : List Char → Bool) (fam : FamilyIn) (r : OrfRow) :
    r ∈ famRows startB fam ↔
      ∃ tr, tr ∈ fam.trs ∧ ∃ cand, cand ∈ find_all_orfs startB tr.seq ∧
        r = mkOrfRow fam.tfam fam.chrom fam.strand tr cand := by
  unfold famRows transcriptRows
  rw [List.mem_flatMap]
  constructor
  · rintro ⟨tr, htr, hr⟩
    obtain ⟨cand, hcand, rfl⟩ := List.mem_map.mp hr
    exact ⟨tr, htr, cand, hcand, rfl⟩
  · rintro ⟨tr, htr, cand, hcand, rfl⟩
    exact ⟨tr, htr, List.mem_map.mpr ⟨cand, hcand, rfl⟩⟩

/-- The fields of a freshly built row after a name is assigned: assigning a name
changes no other column. -/
theorem out_row_fields (tfam chrom : String) (strand : Char) (tr : Transcript)
    (cand : Nat × Nat × List Char) (x : String) :
    ({ mkOrfRow tfam chrom strand tr cand with orfname := x } : OrfRow).tcoord =
        cand.1 ∧
    ({ mkOrfRow tfam chrom strand tr cand with orfname := x } : OrfRow).tstop =
        cand.2.1 ∧
    ({ mkOrfRow tfam chrom strand tr cand with orfname := x } : OrfRow).gcoord =
        get_genomic_coordinate tr cand.1 ∧
    ({ mkOrfRow tfam chrom strand tr cand with orfname := x } : OrfRow).gstop =
        (if cand.2.1 > 0 then
          ((get_genomic_coordinate tr (cand.2.1 - 1) : Int) +
            (if strand = '+' then 2 else 0) - 1) % (2 ^ 32)
        else 0) ∧
    ({ mkOrfRow tfam chrom strand tr cand with orfname := x } : OrfRow).AAlen =
        (if cand.2.1 > 0 then (cand.2.1 - cand.1) / 3 - 1 else 0) ∧
    ({ mkOrfRow tfam chrom strand tr cand with orfname := x } : OrfRow).tid =
        tr.tid ∧
    ({ mkOrfRow tfam chrom strand tr cand with orfname := x } : OrfRow).orfname =
        x :=
  ⟨rfl, rfl, rfl, rfl, rfl, rfl, rfl⟩

/-- Every row of a family's output comes from a member transcript and a candidate of
its sequence, with all fields except the name produced by `mkOrfRow`. -/
theorem mem_out (startB : List Char → Bool) (fam : FamilyIn) (out : List OrfRow)
    (h : identify_tfam_orfs startB fam = Except.ok (some out)) (r : OrfRow)
    (hr : r ∈ out) :
    ∃ tr, tr ∈ fam.trs ∧ ∃ cand, cand ∈ find_all_orfs startB tr.seq ∧
      r = { mkOrfRow fam.tfam fam.chrom fam.strand tr cand with
        orfname := assignName fam.tfam fam.genpos fam.trs (famRows startB fam)
          (mkOrfRow fam.tfam fam.chrom fam.strand tr cand) } := by
  rw [identify_eq_some startB fam out h] at hr
  obtain ⟨r0, hr0, rfl⟩ := List.mem_map.mp hr
  obtain ⟨tr, htr, cand, hcand, rfl⟩ := (mem_famRows startB fam r0).mp hr0
  exact ⟨tr, htr, cand, hcand, rfl⟩

/-! Claims C3, C4 and C5: the per-row numeric fields. -/

/-- Claim C3 (amended): in every family output row that has a stop codon, the stored
genomic stop is the translated genomic position of transcript offset `stop - 1` plus
one on the plus strand and minus one on the minus strand, each reduced modulo
`2 ^ 32` by the `u4` store — coinciding with the plain plus/minus one whenever that
value lies in `[0, 2^32)`; rows without a stop codon carry genomic stop zero. -/
theorem claim_C3_amended (startB : List Char → Bool) (fam : FamilyIn)
    (out : List OrfRow) (h : identify_tfam_orfs startB fam = Except.ok (some out))
    (r : OrfRow) (hr : r ∈ out) :
    ∃ tr, tr ∈ fam.trs ∧ r.tid = tr.tid ∧
      (0 < r.tstop →
        (fam.strand = '+' →
          r.gstop = ((get_genomic_coordinate tr (r.tstop - 1) : Int) + 1) % 2 ^ 32) ∧
        (fam.strand = '-' →
          r.gstop = ((get_genomic_coordinate tr (r.tstop - 1) : Int) - 1) % 2 ^ 32)) ∧
      (r.tstop = 0 → r.gstop = 0) := by
  obtain ⟨tr, htr, cand, hcand, rfl⟩ := mem_out startB fam out h r hr
  obtain ⟨hc1, hc2, hc3, hc4, hc5, hc6, hc7⟩ :=
    out_row_fields fam.tfam fam.chrom fam.strand tr cand
      (assignName fam.tfam fam.genpos fam.trs (famRows startB fam)
        (mkOrfRow fam.tfam fam.chrom fam.strand tr cand))
  refine ⟨tr, htr, hc6, ?_, ?_⟩
  · intro hpos
    rw [hc2] at hpos
    constructor
    · intro hstrand
      rw [hc4, hc2, if_pos hpos, if_pos hstrand]
      have harith : (get_genomic_coordinate tr (cand.2.1 - 1) : Int) + 2 - 1 =
          (get_genomic_coordinate tr (cand.2.1 - 1) : Int) + 1 := by omega
      rw [harith]
    · intro hstrand
      rw [hc4, hc2, if_pos hpos, if_neg (by rw [hstrand]; decide)]
      have harith : (get_genomic_coordinate tr (cand.2.1 - 1) : Int) + 0 - 1 =
          (get_genomic_coordinate tr (cand.2.1 - 1) : Int) - 1 := by omega
      rw [harith]
  · intro hzero
    rw [hc2] at hzero
    rw [hc4, if_neg (by omega)]

/-- A minus-strand family whose single transcript covers genomic positions 2, 1, 0
with sequence TAG; with TAG configured as a start codon the candidate (0, 3, TAG)
has its stop codon's last base at translated genomic coordinate 0. -/
def famC3 : FamilyIn :=
  ⟨"f3", "c", '-', [2, 1, 0], [⟨"t3", [2, 1, 0], "TAG".toList, none⟩]⟩

/-- The output rows of `famC3` under start pattern TAG. -/
def outC3 : List OrfRow := outOf (identify_tfam_orfs (startMatch [['T', 'A', 'G']]) famC3)

/-- Claim C3 counterexample: at minus-strand translated coordinate 0 the `u4` store
wraps, so the program records genomic stop `2^32 - 1` where the claim asserts the
translated position of `stop - 1` minus one, i.e. `-1`. -/
theorem claim_C3_counterexample :
    identify_tfam_orfs (startMatch [['T', 'A', 'G']]) famC3 = Except.ok (some outC3) ∧
    famC3.strand = '-' ∧
    ∃ r ∈ outC3, 0 < r.tstop ∧
      (get_genomic_coordinate ⟨"t3", [2, 1, 0], "TAG".toList, none⟩ (r.tstop - 1) : Int)
        - 1 = -1 ∧
      r.gstop = 2 ^ 32 - 1 ∧
      r.gstop ≠ (get_genomic_coordinate ⟨"t3", [2, 1, 0], "TAG".toList, none⟩
        (r.tstop - 1) : Int) - 1 := by
  decide

/-- Claim C4: every output row's amino-acid length is `(stop - start) / 3 - 1`
(integer division) when a stop codon exists and zero otherwise; on the sequence
ATGAAATAG with pattern ATG the matcher returns the single candidate (0, 9, ATG), whose
amino-acid length is (9-0)/3 - 1 = 2. -/
theorem claim_C4 (startB : List Char → Bool) (fam : FamilyIn) (out : List OrfRow)
    (h : identify_tfam_orfs startB fam = Except.ok (some out)) :
    (∀ r ∈ out, r.AAlen = if 0 < r.tstop then (r.tstop - r.tcoord) / 3 - 1 else 0) ∧
    find_all_orfs (startMatch [['A', 'T', 'G']]) "ATGAAATAG".toList =
      [(0, 9, "ATG".toList)] ∧
    (9 - 0) / 3 - 1 = 2 := by
  refine ⟨?_, by decide, by decide⟩
  intro r hr
  obtain ⟨tr, htr, cand, hcand, rfl⟩ := mem_out startB fam out h r hr
  obtain ⟨hc1, hc2, hc3, hc4, hc5, hc6, hc7⟩ :=
    out_row_fields fam.tfam fam.chrom fam.strand tr cand
      (assignName fam.tfam fam.genpos fam.trs (famRows startB fam)
        (mkOrfRow fam.tfam fam.chrom fam.strand tr cand))
  rw [hc5, hc2, hc1]

/-- Claim C5 (amended): the amino-acid length and the genomic stop are zero whenever
no stop codon was found, and a nonzero amino-acid length or genomic stop occurs only
when a stop codon was found; the converse direction of the original claim fails (a
found stop can still produce a zero amino-acid length or a zero genomic stop, see the
counterexample). -/
theorem claim_C5_amended (startB : List Char → Bool) (fam : FamilyIn)
    (out : List OrfRow) (h : identify_tfam_orfs startB fam = Except.ok (some out)) (r : OrfRow)
    (hr : r ∈ out) :
    (r.tstop = 0 → r.AAlen = 0 ∧ r.gstop = 0) ∧
    (r.AAlen ≠ 0 → 0 < r.tstop) ∧ (r.gstop ≠ 0 → 0 < r.tstop) := by
  obtain ⟨tr, htr, cand, hcand, rfl⟩ := mem_out startB fam out h r hr
  obtain ⟨hc1, hc2, hc3, hc4, hc5, hc6, hc7⟩ :=
    out_row_fields fam.tfam fam.chrom fam.strand tr cand
      (assignName fam.tfam fam.genpos fam.trs (famRows startB fam)
        (mkOrfRow fam.tfam fam.chrom fam.strand tr cand))
  constructor
  · intro hzero
    rw [hc2] at hzero
    constructor
    · rw [hc5, if_neg (by omega)]
    · rw [hc4, if_neg (by omega)]
  constructor
  · intro hA
    rw [hc2]
    by_contra hpos
    have htstop : cand.2.1 = 0 := by omega
    exact hA (by rw [hc5, if_neg (by omega)])
  · intro hG
    rw [hc2]
    by_contra hpos
    have htstop : cand.2.1 = 0 := by omega
    exact hG (by rw [hc4, if_neg (by omega)])

/-- A family whose single transcript lies on the minus strand with genomic positions
3,2,1 and sequence TAG; with TAG configured as a start codon the single candidate is
(0, 3, TAG): the stop codon is found, yet both the amino-acid length ((3-0)/3 - 1 = 0)
and the genomic stop (1 + 0 - 1 = 0) are zero. -/
def famC5 : FamilyIn :=
  ⟨"f", "c", '-', [3, 2, 1], [⟨"tB", [3, 2, 1], "TAG".toList, none⟩]⟩

/-- The output rows of `famC5` under start pattern TAG. -/
def outC5 : List OrfRow :=
  outOf (identify_tfam_orfs (startMatch [['T', 'A', 'G']]) famC5)

/-- Claim C5 counterexample: a row whose stop codon was found (`tstop = 3 > 0`) but
whose amino-acid length and genomic stop are both zero, refuting "populated (nonzero)
if and only if a stop codon was found". -/
theorem claim_C5_counterexample :
    identify_tfam_orfs (startMatch [['T', 'A', 'G']]) famC5 = Except.ok (some outC5) ∧
    ∃ r ∈ outC5, 0 < r.tstop ∧ r.AAlen = 0 ∧ r.gstop = 0 := by decide

/-- The single row of `outC5`. -/
def rowC5 : OrfRow := outC5.headD (mkOrfRow "" "" '+' ⟨"", [], [], none⟩ (0, 0, []))

theorem claim_C5_witness :
    (rowC5.tstop = 0 → rowC5.AAlen = 0 ∧ rowC5.gstop = 0) ∧
    (rowC5.AAlen ≠ 0 → 0 < rowC5.tstop) ∧ (rowC5.gstop ≠ 0 → 0 < rowC5.tstop) :=
  claim_C5_amended (startMatch [['T', 'A', 'G']]) famC5 outC5 (by decide) rowC5
    (by decide)

/-- The configured default start pattern, a single ATG codon. -/
def startATG : List Char → Bool := startMatch [['A', 'T', 'G']]

/-- A plus-strand family with one transcript carrying the sequence ATGAAATAG at
genomic positions 100..108. -/
def famEx : FamilyIn :=
  ⟨"fam1", "chr1", '+', [100, 101, 102, 103, 104, 105, 106, 107, 108],
    [⟨"tA", [100, 101, 102, 103, 104, 105, 106, 107, 108], "ATGAAATAG".toList, none⟩]⟩

/-- The output rows of `famEx` under the default ATG pattern. -/
def outEx : List OrfRow := outOf (identify_tfam_orfs startATG famEx)

/-- The single row of `outEx`. -/
def rowEx : OrfRow := outEx.headD (mkOrfRow "" "" '+' ⟨"", [], [], none⟩ (0, 0, []))

theorem claim_C3_witness :
    ∃ tr, tr ∈ famEx.trs ∧ rowEx.tid = tr.tid ∧
      (0 < rowEx.tstop →
        (famEx.strand = '+' →
          rowEx.gstop =
            ((get_genomic_coordinate tr (rowEx.tstop - 1) : Int) + 1) % 2 ^ 32) ∧
        (famEx.strand = '-' →
          rowEx.gstop =
            ((get_genomic_coordinate tr (rowEx.tstop - 1) : Int) - 1) % 2 ^ 32)) ∧
      (rowEx.tstop = 0 → rowEx.gstop = 0) :=
  claim_C3_amended startATG famEx outEx (by decide) rowEx (by decide)

theorem claim_C4_witness :
    (∀ r ∈ outEx, r.AAlen = if 0 < r.tstop then (r.tstop - r.tcoord) / 3 - 1 else 0) ∧
    find_all_orfs (startMatch [['A', 'T', 'G']]) "ATGAAATAG".toList =
      [(0, 9, "ATG".toList)] ∧
    (9 - 0) / 3 - 1 = 2 :=
  claim_C4 startATG famEx outEx (by decide)

/-! Claim C6: behavior of the run when no family yields any candidate. -/

/-- Claim C6 (amended): if every per-family invocation returns the absence signal,
the run does not produce an empty output table; the concatenation step raises an
error (pandas refuses an all-None — or empty — input), aborting the run. -/
theorem claim_C6_amended (startB : List Char → Bool) (fams : List FamilyIn)
    (h : ∀ f ∈ fams, identify_tfam_orfs startB f = Except.ok none) :
    ∃ msg, run_find_orfs startB fams = Except.error msg := by
  have hcoll : ∀ gs : List FamilyIn,
      (∀ f ∈ gs, identify_tfam_orfs startB f = Except.ok none) →
      collectResults startB gs = Except.ok (gs.map fun _ => none) := by
    intro gs
    induction gs with
    | nil => intro _; rfl
    | cons f fs ih =>
      intro hg
      have hf := hg f (List.mem_cons_self f fs)
      have hfs := ih fun g hgm => hg g (List.mem_cons_of_mem f hgm)
      simp only [collectResults, hf, hfs, List.map_cons]
  unfold run_find_orfs
  rw [hcoll fams h]
  dsimp only
  unfold pd_concat
  cases fams with
  | nil => exact ⟨"No objects to concatenate", by simp⟩
  | cons f fs =>
    refine ⟨"All objects passed were None", ?_⟩
    rw [if_neg (by simp), if_pos (by simp)]

/-- A family whose single transcript has no ATG anywhere: no candidate is produced
and the family resolver returns the absence signal. -/
def famC6 : FamilyIn := ⟨"f", "c", '+', [1, 2, 3], [⟨"t", [1, 2, 3], "AAA".toList, none⟩]⟩

/-- Claim C6 counterexample: with a single family yielding no ORF candidate, the run
ends in an error instead of producing an (empty) output table. -/
theorem claim_C6_counterexample :
    run_find_orfs startATG [famC6] = Except.error "All objects passed were None" := by
  rfl

theorem claim_C6_witness :
    (∀ f ∈ [famC6], identify_tfam_orfs startATG f = Except.ok none) ∧
    ∃ msg, run_find_orfs startATG [famC6] = Except.error msg :=
  ⟨by decide, claim_C6_amended startATG [famC6] (by decide)⟩

/-! Claim C7: the startup checks of the two scripts. -/

/-- Claim C7 (amended): each variant fails fast before any per-family processing on
exactly its own checks — src/find_orfs.py on a pre-existing output without --force or
a malformed codon (but not on an empty transcript annotation input), and
src/find_ORFs.py on a malformed codon or an empty transcript annotation input (but
not on a pre-existing output); no single variant performs all three checks. -/
theorem claim_C7_amended (force fileEx : Bool) (codons : List (List Char))
    (bedIds : List String) :
    (find_orfs_precheck force fileEx codons bedIds = Except.ok () ↔
      ((force || !fileEx) = true ∧ codons.all isValidCodon = true)) ∧
    (find_ORFs_precheck codons fileEx bedIds = Except.ok () ↔
      (codons.all isValidCodon = true ∧ bedIds ≠ [])) := by
  have hcod : (codons.any fun c => !isValidCodon c) = !codons.all isValidCodon := by
    rw [← List.not_all_eq_any_not]
  constructor
  · unfold find_orfs_precheck
    rw [hcod]
    cases hall : codons.all isValidCodon <;> cases force <;> cases fileEx <;> simp
  · unfold find_ORFs_precheck
    rw [hcod]
    cases hall : codons.all isValidCodon <;> cases bedIds <;> simp

/-- Claim C7 counterexample: src/find_orfs.py passes its prechecks on an empty
transcript annotation input (no fail-fast for the third case), and src/find_ORFs.py
passes its prechecks when the output path already exists (no fail-fast for the first
case), so neither program fails fast in all three cases. -/
theorem claim_C7_counterexample :
    find_orfs_precheck false false [['A', 'T', 'G']] [] = Except.ok () ∧
    find_ORFs_precheck [['A', 'T', 'G']] true ["t0"] = Except.ok () :=
  ⟨rfl, rfl⟩

theorem claim_C7_witness :
    find_orfs_precheck true false [['A', 'T', 'G']] [] = Except.ok () ∧
    find_ORFs_precheck [['A', 'T', 'G']] false ["x"] = Except.ok () :=
  ⟨(claim_C7_amended true false [['A', 'T', 'G']] []).1.mpr ⟨rfl, by decide⟩,
   (claim_C7_amended true false [['A', 'T', 'G']] ["x"]).2.mpr
     ⟨by decide, by decide⟩⟩

/-! Claims C8 and C9: the CDS-consistency step of the annotation-aware variant. -/

theorem countP_eq_one_decomp {α : Type} (p : α → Bool) :
    ∀ l : List α, l.countP p = 1 →
      ∃ l1 x l2, l = l1 ++ x :: l2 ∧ p x = true ∧
        (∀ y ∈ l1, p y = false) ∧ (∀ y ∈ l2, p y = false) := by
  intro l
  induction l with
  | nil =>
    intro h
    simp at h
  | cons a t ih =>
    intro h
    rw [List.countP_cons] at h
    by_cases hpa : p a = true
    · rw [if_pos hpa] at h
      have ht : t.countP p = 0 := by omega
      rw [List.countP_eq_zero] at ht
      exact ⟨[], a, t, rfl, hpa, by simp, fun y hy => by
        have := ht y hy
        simp only [Bool.not_eq_true] at this
        exact this⟩
    · rw [if_neg hpa] at h
      have ht : t.countP p = 1 := by omega
      obtain ⟨l1, x, l2, rfl, hx, hl1, hl2⟩ := ih ht
      refine ⟨a :: l1, x, l2, rfl, hx, ?_, hl2⟩
      intro y hy
      rcases List.mem_cons.mp hy with rfl | hy
      · simp only [Bool.not_eq_true] at hpa
        exact hpa
      · exact hl1 y hy

theorem indexOf_true_append (xs ys : List Bool) (hxs : ∀ y ∈ xs, y = false) :
    (xs ++ true :: ys).indexOf true = xs.length := by
  induction xs with
  | nil => simp [List.indexOf, List.findIdx_cons]
  | cons a t ih =>
    have ha : a = false := hxs a (List.mem_cons_self a t)
    rw [List.cons_append, List.indexOf_cons]
    rw [ha]
    simp only [List.length_cons]
    rw [ih fun y hy => hxs y (List.mem_cons_of_mem a hy)]
    rfl

theorem getD_append_length {α : Type} (l1 : List α) (x : α) (l2 : List α) (d : α) :
    (l1 ++ x :: l2).getD l1.length d = x := by
  induction l1 with
  | nil => rfl
  | cons a t ih => simpa using ih

theorem set_append_length {α : Type} (l1 : List α) (x v : α) (l2 : List α) :
    (l1 ++ x :: l2).set l1.length v = l1 ++ v :: l2 := by
  induction l1 with
  | nil => rfl
  | cons a t ih =>
    simp only [List.cons_append, List.length_cons, List.set_cons_succ]
    rw [ih]

/-- When at most one candidate start equals the annotated CDS start, the
CDS-consistency step never hits its assertion and returns normally. -/
theorem annot_flags_ok (ign : Bool) (tr : Transcript)
    (cands : List (Nat × Nat × List Char))
    (h : (cands.countP fun c => decide (c.1 = (tr.cds.getD (0, 0)).1)) ≤ 1) :
    ∃ res, annot_flags ign tr cands = Except.ok res := by
  unfold annot_flags
  by_cases hig : (ign || tr.cds.isNone) = true
  · rw [if_pos hig]
    exact ⟨_, rfl⟩
  · rw [if_neg hig]
    have hcnt : ((cands.map fun c =>
        decide (c.1 = (tr.cds.getD (0, 0)).1)).count true) =
        cands.countP fun c => decide (c.1 = (tr.cds.getD (0, 0)).1) := by
      rw [List.count_eq_countP, List.countP_map]
      congr 1
      funext z
      simp
    have hlt : ¬ (1 < (cands.map fun c =>
        decide (c.1 = (tr.cds.getD (0, 0)).1)).count true) := by
      rw [hcnt]
      omega
    rw [if_neg hlt]
    by_cases h2 : ((cands.map fun c =>
        decide (c.1 = (tr.cds.getD (0, 0)).1)).count true) = 1
    · rw [if_pos h2]
      by_cases h3 : (cands.getD ((cands.map fun c =>
          decide (c.1 = (tr.cds.getD (0, 0)).1)).indexOf true) (0, 0, [])).2.1 ≠
          (tr.cds.getD (0, 0)).2
      · rw [if_pos h3]
        exact ⟨_, rfl⟩
      · rw [if_neg h3]
        exact ⟨_, rfl⟩
    · rw [if_neg h2]
      exact ⟨_, rfl⟩

/-- Claim C9: for every transcript, the codon matcher yields at most one candidate
whose start offset equals the annotated CDS start, so the runtime assertion
`annot_cds.sum() <= 1` never fails and the CDS-consistency step always returns. -/
theorem claim_C9 (startB : List Char → Bool) (tr : Transcript) (ign : Bool)
    (cs : Nat) :
    ((find_all_orfs startB tr.seq).countP fun e => decide (e.1 = cs)) ≤ 1 ∧
    ∃ res, annot_flags ign tr (find_all_orfs startB tr.seq) = Except.ok res := by
  have hle : ∀ c0 : Nat,
      ((find_all_orfs startB tr.seq).countP fun e => decide (e.1 = c0)) ≤ 1 := by
    intro c0
    rw [count_start_find_all_orfs]
    split <;> omega
  exact ⟨hle cs, annot_flags_ok ign tr (find_all_orfs startB tr.seq) (hle _)⟩

theorem claim_C9_witness :
    ((find_all_orfs startATG
        (⟨"t8", [0, 1, 2, 3, 4, 5, 6, 7, 8], "ATGAAATAG".toList, some (0, 8)⟩ :
          Transcript).seq).countP fun e => decide (e.1 = 0)) ≤ 1 ∧
    ∃ res, annot_flags false
      ⟨"t8", [0, 1, 2, 3, 4, 5, 6, 7, 8], "ATGAAATAG".toList, some (0, 8)⟩
      (find_all_orfs startATG
        (⟨"t8", [0, 1, 2, 3, 4, 5, 6, 7, 8], "ATGAAATAG".toList, some (0, 8)⟩ :
          Transcript).seq) = Except.ok res :=
  claim_C9 startATG ⟨"t8", [0, 1, 2, 3, 4, 5, 6, 7, 8], "ATGAAATAG".toList, some (0, 8)⟩
    false 0

/-- The exact outcome of the CDS-consistency step in the malformed-CDS scenario: the
unique flagged candidate is un-flagged and the warning fires. -/
theorem annot_flags_downgrade (tr : Transcript) (cs ce : Nat)
    (hcds : tr.cds = some (cs, ce)) (cands : List (Nat × Nat × List Char))
    (hcount : (cands.countP fun c => decide (c.1 = cs)) = 1)
    (i st : Nat) (c : List Char) (hmem : (i, st, c) ∈ cands) (hi : i = cs)
    (hst : st ≠ ce) :
    ∃ flags, annot_flags false tr cands = Except.ok ⟨flags, true⟩ ∧
      flags.length = cands.length ∧ ∀ b ∈ flags, b = false := by
  obtain ⟨l1, x, l2, rfl, hx, hl1, hl2⟩ :=
    countP_eq_one_decomp (fun z : Nat × Nat × List Char => decide (z.1 = cs)) _ hcount
  have hxeq : x = (i, st, c) := by
    rcases List.mem_append.mp hmem with hmem1 | hmem2
    · exact absurd (hl1 _ hmem1) (by simp [hi])
    · rcases List.mem_cons.mp hmem2 with heq | hmem3
      · exact heq.symm
      · exact absurd (hl2 _ hmem3) (by simp [hi])

  unfold annot_flags
  rw [if_neg (by simp [hcds])]
  dsimp only
  have hg1 : (tr.cds.getD (0, 0)).1 = cs := by simp [hcds]
  have hg2 : (tr.cds.getD (0, 0)).2 = ce := by simp [hcds]
  rw [hg1, hg2]
  have hmapeq : ((l1 ++ x :: l2).map fun z => decide (z.1 = cs)) =
      (l1.map fun z => decide (z.1 = cs)) ++
        true :: (l2.map fun z => decide (z.1 = cs)) := by
    rw [List.map_append, List.map_cons, hx]
  rw [hmapeq]
  have hcnt : ((l1.map fun z => decide (z.1 = cs)) ++
      true :: (l2.map fun z => decide (z.1 = cs))).count true =
      (l1 ++ x :: l2).countP fun z => decide (z.1 = cs) := by
    rw [← hmapeq, List.count_eq_countP, List.countP_map]
    congr 1
    funext z
    simp
  have hfalse1 : ∀ y ∈ l1.map fun c => decide (c.1 = cs), y = false := by
    intro y hy
    obtain ⟨z, hz, rfl⟩ := List.mem_map.mp hy
    exact hl1 z hz
  have hfalse2 : ∀ y ∈ l2.map fun c => decide (c.1 = cs), y = false := by
    intro y hy
    obtain ⟨z, hz, rfl⟩ := List.mem_map.mp hy
    exact hl2 z hz
  rw [if_neg (by rw [hcnt, hcount]; omega), if_pos (by rw [hcnt, hcount])]
  rw [indexOf_true_append _ _ hfalse1]
  have hlen1 : (l1.map fun c => decide (c.1 = cs)).length = l1.length :=
    List.length_map l1 _
  rw [hlen1, getD_append_length, hxeq]
  rw [if_pos (by simpa using hst)]
  rw [← hlen1, set_append_length]
  refine ⟨_, rfl, ?_, ?_⟩
  · simp
  · intro b hb
    rcases List.mem_append.mp hb with hb1 | hb2
    · exact hfalse1 b hb1
    · rcases List.mem_cons.mp hb2 with rfl | hb3
      · rfl
      · exact hfalse2 b hb3

/-- Claim C8: in the annotation-aware variant, a transcript whose annotated CDS start
matches a discovered candidate while the discovered stop differs from the annotated
CDS end has that candidate's annotation flag downgraded to not-annotated, the
non-fatal warning is emitted, the rows (including the affected one) are still
produced, and the step returns normally instead of aborting. -/
theorem claim_C8 (startB : List Char → Bool) (tfam chrom : String) (strand : Char)
    (tr : Transcript) (cs ce i st : Nat) (c : List Char)
    (hcds : tr.cds = some (cs, ce))
    (hmem : (i, st, c) ∈ find_all_orfs startB tr.seq)
    (hi : i = cs) (hst : st ≠ ce) :
    ∃ rows, transcriptRowsA startB false tfam chrom strand tr =
        Except.ok (rows, true) ∧
      rows.length = (find_all_orfs startB tr.seq).length ∧
      (∃ r ∈ rows, r.tcoord = cs ∧ r.tstop = st ∧ r.annot = false) ∧
      ∀ r ∈ rows, r.annot = false := by
  have hpos : 0 < (find_all_orfs startB tr.seq).countP fun e => decide (e.1 = cs) :=
    List.countP_pos_iff.mpr ⟨(i, st, c), hmem, by simp [hi]⟩
  have hcount : ((find_all_orfs startB tr.seq).countP fun e => decide (e.1 = cs)) = 1 := by
    rw [count_start_find_all_orfs] at hpos ⊢
    by_cases hP : cs + 3 ≤ tr.seq.length ∧ startB (seqSlice tr.seq cs (cs + 3)) = true
    · rw [if_pos hP]
    · rw [if_neg hP] at hpos
      omega
  obtain ⟨flags, hflags, hflen, hfall⟩ :=
    annot_flags_downgrade tr cs ce hcds (find_all_orfs startB tr.seq) hcount i st c
      hmem hi hst
  unfold transcriptRowsA
  dsimp only
  rw [hflags]
  refine ⟨_, rfl, ?_, ?_, ?_⟩
  · rw [List.length_map, List.length_zip, hflen, Nat.min_self]
  · obtain ⟨k, hk, hgetk⟩ := List.mem_iff_getElem.mp hmem
    have hkz : k < ((find_all_orfs startB tr.seq).zip flags).length := by
      rw [List.length_zip, hflen, Nat.min_self]
      exact hk
    have hkf : k < flags.length := by
      rw [hflen]
      exact hk
    have hpair : (((find_all_orfs startB tr.seq)[k], flags[k]) :
        (Nat × Nat × List Char) × Bool) ∈ (find_all_orfs startB tr.seq).zip flags := by
      rw [List.mem_iff_getElem]
      exact ⟨k, hkz, by rw [List.getElem_zip]⟩
    refine ⟨OrfRowA.mk (mkOrfRow tfam chrom strand tr
        ((find_all_orfs startB tr.seq)[k])) flags[k], ?_, ?_, ?_, ?_⟩
    · exact List.mem_map.mpr ⟨_, hpair, rfl⟩
    · show ((find_all_orfs startB tr.seq)[k]).1 = cs
      rw [hgetk]
      exact hi
    · show ((find_all_orfs startB tr.seq)[k]).2.1 = st
      rw [hgetk]
    · exact hfall _ (List.getElem_mem hkf)
  · intro r hr
    obtain ⟨p, hp, rfl⟩ := List.mem_map.mp hr
    exact hfall p.2 (List.of_mem_zip hp).2

theorem claim_C8_witness :
    ∃ rows, transcriptRowsA startATG false "f8" "c8" '+'
        ⟨"t8", [0, 1, 2, 3, 4, 5, 6, 7, 8], "ATGAAATAG".toList, some (0, 8)⟩ =
        Except.ok (rows, true) ∧
      rows.length = (find_all_orfs startATG
        (⟨"t8", [0, 1, 2, 3, 4, 5, 6, 7, 8], "ATGAAATAG".toList, some (0, 8)⟩ :
          Transcript).seq).length ∧
      (∃ r ∈ rows, r.tcoord = 0 ∧ r.tstop = 9 ∧ r.annot = false) ∧
      ∀ r ∈ rows, r.annot = false :=
  claim_C8 startATG "f8" "c8" '+'
    ⟨"t8", [0, 1, 2, 3, 4, 5, 6, 7, 8], "ATGAAATAG".toList, some (0, 8)⟩
    0 8 0 9 "ATG".toList rfl (by decide) rfl (by decide)

/-! Claim C1: geometry of the presence mask, and the naming pass. -/

theorem range_filter_map_getD (l : List Nat) (p : Nat → Bool) :
    ((List.range l.length).filter fun j => p (l.getD j 0)).map (fun j => l.getD j 0) =
      l.filter p := by
  induction l with
  | nil => rfl
  | cons a t ih =>
    rw [List.length_cons, List.range_succ_eq_map]
    rw [List.filter_cons]
    have hz : ((a :: t).getD 0 0) = a := rfl
    rw [hz]
    have hmapped : (List.map Nat.succ (List.range t.length)).filter
        (fun j => p ((a :: t).getD j 0)) =
        ((List.range t.length).filter fun j => p (t.getD j 0)).map Nat.succ := by
      rw [List.filter_map]
      congr 1
    by_cases hpa : p a = true
    · rw [if_pos hpa, List.map_cons, hz, hmapped, List.map_map]
      have hcomp : ((fun j => (a :: t).getD j 0) ∘ Nat.succ) = fun j => t.getD j 0 := by
        funext j
        rfl
      rw [hcomp, ih, List.filter_cons, if_pos hpa]
    · rw [if_neg hpa, hmapped, List.map_map]
      have hcomp : ((fun j => (a :: t).getD j 0) ∘ Nat.succ) = fun j => t.getD j 0 := by
        funext j
        rfl
      rw [hcomp, ih, List.filter_cons, if_neg hpa]

theorem filter_mem_sublist (l s : List Nat) (hnd : l.Nodup) (hsub : s.Sublist l) :
    (l.filter fun x => decide (x ∈ s)) = s := by
  induction hsub with
  | slnil => simp
  | @cons s t a hsub ih =>
    rw [List.nodup_cons] at hnd
    rw [List.filter_cons]
    have hnotmem : a ∉ s := fun hmem => hnd.1 (hsub.subset hmem)
    rw [if_neg (by simpa using hnotmem)]
    exact ih hnd.2
  | @cons₂ s t a hsub ih =>
    rw [List.nodup_cons] at hnd
    rw [List.filter_cons]
    rw [if_pos (by simp)]
    have hcongr : (t.filter fun x => decide (x ∈ a :: s)) =
        t.filter fun x => decide (x ∈ s) := by
      apply List.filter_congr
      intro x hx
      have hxa : x ≠ a := fun hxa => hnd.1 (hxa ▸ hx)
      simp [List.mem_cons, hxa]
    rw [hcongr, ih hnd.2]

theorem maskIdx_map (genpos : List Nat) (tr : Transcript) (hnd : genpos.Nodup)
    (hsub : tr.pos.Sublist genpos) :
    (transcriptMaskIdx genpos tr).map (fun j => genpos.getD j 0) = tr.pos := by
  unfold transcriptMaskIdx
  rw [range_filter_map_getD genpos fun x => decide (x ∈ tr.pos)]
  exact filter_mem_sublist genpos tr.pos hnd hsub

theorem maskIdx_length (genpos : List Nat) (tr : Transcript) (hnd : genpos.Nodup)
    (hsub : tr.pos.Sublist genpos) :
    (transcriptMaskIdx genpos tr).length = tr.pos.length := by
  rw [← maskIdx_map genpos tr hnd hsub, List.length_map]

theorem maskIdx_getD_pos (genpos : List Nat) (tr : Transcript) (hnd : genpos.Nodup)
    (hsub : tr.pos.Sublist genpos) (k : Nat) (hk : k < tr.pos.length) :
    genpos.getD ((transcriptMaskIdx genpos tr).getD k 0) 0 = tr.pos.getD k 0 := by
  have hmap := maskIdx_map genpos tr hnd hsub
  have hklen : k < (transcriptMaskIdx genpos tr).length := by
    rw [maskIdx_length genpos tr hnd hsub]
    exact hk
  have hg : (transcriptMaskIdx genpos tr).getD k 0 =
      (transcriptMaskIdx genpos tr)[k] := by
    rw [List.getD_eq_getElem?_getD, List.getElem?_eq_getElem hklen]
    rfl
  have hp : tr.pos.getD k 0 = tr.pos[k] := by
    rw [List.getD_eq_getElem?_getD, List.getElem?_eq_getElem hk]
    rfl
  have h1 : ((transcriptMaskIdx genpos tr).map (fun j => genpos.getD j 0))[k]? =
      tr.pos[k]? := by rw [hmap]
  rw [List.getElem?_map, List.getElem?_eq_getElem hklen,
    List.getElem?_eq_getElem hk] at h1
  have h2 : genpos.getD ((transcriptMaskIdx genpos tr)[k]) 0 = tr.pos[k] := by
    simpa using h1
  rw [hg, hp]
  exact h2

theorem find?_tid (trs : List Transcript) (tr : Transcript)
    (hnd : (trs.map Transcript.tid).Nodup) (htr : tr ∈ trs) :
    trs.find? (fun t => t.tid == tr.tid) = some tr := by
  induction trs with
  | nil => cases htr
  | cons a rest ih =>
    rw [List.map_cons, List.nodup_cons] at hnd
    rcases List.mem_cons.mp htr with rfl | hmem
    · rw [List.find?_cons_of_pos _ (by simp)]
    · have hne : a.tid ≠ tr.tid := by
        intro heq
        exact hnd.1 (heq ▸ List.mem_map.mpr ⟨tr, hmem, rfl⟩)
      rw [List.find?_cons_of_neg _ (by simpa using hne)]
      exact ih hnd.2 hmem

theorem length_ne_one_of_two_mem {α : Type} (l : List α) (a b : α) (ha : a ∈ l)
    (hb : b ∈ l) (hab : a ≠ b) : l.length ≠ 1 := by
  intro hlen
  obtain ⟨x, rfl⟩ := List.length_eq_one.mp hlen
  rw [List.mem_singleton] at ha hb
  exact hab (ha.trans hb.symm)

theorem mem_firstOccsRec {α : Type} [DecidableEq α] :
    ∀ (n : Nat) (l : List α), l.length ≤ n → ∀ x, (x ∈ firstOccsRec n l ↔ x ∈ l) := by
  intro n
  induction n with
  | zero =>
    intro l hl x
    rw [Nat.le_zero] at hl
    rw [List.length_eq_zero] at hl
    subst hl
    simp [firstOccsRec]
  | succ n ih =>
    intro l hl x
    cases l with
    | nil => simp [firstOccsRec]
    | cons a t =>
      rw [firstOccsRec]
      rw [List.mem_cons, List.mem_cons]
      have hlen : (t.filter fun b => decide (b ≠ a)).length ≤ n := by
        have := List.length_filter_le (fun b => decide (b ≠ a)) t
        rw [List.length_cons] at hl
        omega
      rw [ih _ hlen x]
      constructor
      · rintro (rfl | hx)
        · exact Or.inl rfl
        · exact Or.inr (List.mem_filter.mp hx).1
      · rintro (rfl | hx)
        · exact Or.inl rfl
        · by_cases hxa : x = a
          · exact Or.inl hxa
          · exact Or.inr (List.mem_filter.mpr ⟨hx, by simpa using hxa⟩)

theorem mem_firstOccs {α : Type} [DecidableEq α] (l : List α) (x : α) :
    x ∈ firstOccs l ↔ x ∈ l :=
  mem_firstOccsRec l.length l le_rfl x

theorem indexOf_mem_lt {α : Type} [BEq α] [LawfulBEq α] (l : List α) (a : α)
    (h : a ∈ l) : l.indexOf a < l.length := by
  induction l with
  | nil => cases h
  | cons b t ih =>
    rw [List.indexOf_cons]
    by_cases hba : b == a
    · rw [hba]
      simp
    · rw [Bool.not_eq_true] at hba
      rw [hba]
      rcases List.mem_cons.mp h with rfl | hmem
      · rw [beq_self_eq_true] at hba
        cases hba
      · simpa using ih hmem

theorem getD_indexOf {α : Type} [BEq α] [LawfulBEq α] (l : List α) (a d : α)
    (h : a ∈ l) : l.getD (l.indexOf a) d = a := by
  induction l with
  | nil => cases h
  | cons b t ih =>
    rw [List.indexOf_cons]
    by_cases hba : b == a
    · rw [hba]
      exact eq_of_beq hba
    · rw [Bool.not_eq_true] at hba
      rw [hba]
      rcases List.mem_cons.mp h with rfl | hmem
      · rw [beq_self_eq_true] at hba
        cases hba
      · show t.getD (t.indexOf a) d = a
        exact ih hmem

theorem indexOf_inj {α : Type} [BEq α] [LawfulBEq α] (l : List α) (a b d : α)
    (ha : a ∈ l) (hb : b ∈ l) (h : l.indexOf a = l.indexOf b) : a = b := by
  have h1 := getD_indexOf l a d ha
  have h2 := getD_indexOf l b d hb
  rw [h] at h1
  rw [h1] at h2
  exact h2

/-! Injectivity of the decimal rendering used by the `'%d'` format, needed to show
that distinct cluster suffixes give distinct names. -/

/-- The numeric value read back from a decimal digit string; a left inverse of
`Nat.toDigits 10`. -/
def digitsVal (l : List Char) : Nat := l.foldl (fun a c => a * 10 + (c.toNat - 48)) 0

theorem digitChar_val (d : Nat) (hd : d < 10) : (Nat.digitChar d).toNat - 48 = d := by
  interval_cases d <;> decide

theorem foldl_toDigitsCore :
    ∀ (fuel n : Nat) (ds : List Char), n < fuel →
      (Nat.toDigitsCore 10 fuel n ds).foldl (fun a c => a * 10 + (c.toNat - 48)) 0 =
        ds.foldl (fun a c => a * 10 + (c.toNat - 48)) n := by
  intro fuel
  induction fuel with
  | zero =>
    intro n ds h
    omega
  | succ fuel ih =>
    intro n ds h
    simp only [Nat.toDigitsCore]
    by_cases h10 : n / 10 = 0
    · rw [if_pos h10, List.foldl_cons]
      have hv : 0 * 10 + ((Nat.digitChar (n % 10)).toNat - 48) = n := by
        rw [digitChar_val (n % 10) (by omega)]
        omega
      rw [hv]
    · rw [if_neg h10, ih (n / 10) _ (by omega), List.foldl_cons]
      have hv : n / 10 * 10 + ((Nat.digitChar (n % 10)).toNat - 48) = n := by
        rw [digitChar_val (n % 10) (by omega)]
        omega
      rw [hv]

theorem digitsVal_toDigits (n : Nat) : digitsVal (Nat.toDigits 10 n) = n := by
  unfold Nat.toDigits digitsVal
  rw [foldl_toDigitsCore (n + 1) n [] (by omega)]
  rfl

theorem natRepr_data_inj (a b : Nat) (h : Nat.toDigits 10 a = Nat.toDigits 10 b) :
    a = b := by
  have ha := digitsVal_toDigits a
  rw [h, digitsVal_toDigits b] at ha
  exact ha.symm

theorem name_suffix_ne (base : String) (k1 k2 : Nat) (hk : k1 ≠ k2) :
    base ++ "_" ++ toString k1 ≠ base ++ "_" ++ toString k2 := by
  intro h
  apply hk
  have hd := congrArg String.data h
  rw [String.data_append, String.data_append, String.data_append,
    String.data_append] at hd
  have h3 := List.append_cancel_left hd
  exact natRepr_data_inj k1 k2 h3

theorem rowSlice_eq (genpos : List Nat) (trs : List Transcript) (r : OrfRow)
    (tr : Transcript) (hnd : (trs.map Transcript.tid).Nodup) (htr : tr ∈ trs)
    (htid : r.tid = tr.tid) :
    rowSlice genpos trs r =
      ((transcriptMaskIdx genpos tr).take r.tstop).drop r.tcoord := by
  unfold rowSlice
  rw [htid, find?_tid trs tr hnd htr]

theorem slice_length (m : List Nat) (tcoord tstop : Nat) (h1 : tstop ≤ m.length) :
    ((m.take tstop).drop tcoord).length = tstop - tcoord := by
  rw [List.length_drop, List.length_take]
  omega

theorem slice_head (m : List Nat) (tcoord tstop : Nat) (h1 : tstop ≤ m.length)
    (h2 : tcoord < tstop) :
    ((m.take tstop).drop tcoord).getD 0 0 = m.getD tcoord 0 := by
  have hlen : 0 < ((m.take tstop).drop tcoord).length := by
    rw [slice_length m tcoord tstop h1]
    omega
  have htc : tcoord < m.length := by omega
  rw [List.getD_eq_getElem?_getD, List.getElem?_eq_getElem hlen,
    List.getD_eq_getElem?_getD, List.getElem?_eq_getElem htc]
  simp

/-- Filtering the named output rows on a (gcoord, AAlen) key is the same as naming
the filtered raw rows: the name assignment does not change the grouping key. -/
theorem out_filter_key (tfam : String) (genpos : List Nat) (trs : List Transcript)
    (rows : List OrfRow) (g a : Nat) :
    ((rows.map fun r => { r with orfname := assignName tfam genpos trs rows r }).filter
        fun r2 => decide (r2.gcoord = g) && decide (r2.AAlen = a)) =
      (rows.filter fun r2 => decide (r2.gcoord = g) && decide (r2.AAlen = a)).map
        fun r => { r with orfname := assignName tfam genpos trs rows r } := by
  rw [List.filter_map]
  have hpred : ((fun r2 : OrfRow => decide (r2.gcoord = g) && decide (r2.AAlen = a)) ∘
      fun r : OrfRow =>
        ({ r with orfname := assignName tfam genpos trs rows r } : OrfRow)) =
      fun r2 : OrfRow => decide (r2.gcoord = g) && decide (r2.AAlen = a) := by
    funext r
    rfl
  rw [hpred]

/-- Renaming does not change a row's footprint. -/
theorem rowSlice_rename (genpos : List Nat) (trs : List Transcript) (r : OrfRow)
    (x : String) :
    rowSlice genpos trs { r with orfname := x } = rowSlice genpos trs r := rfl

theorem sets_map_rename (tfam : String) (genpos : List Nat) (trs : List Transcript)
    (rows grp : List OrfRow) :
    ((grp.map fun r => { r with orfname := assignName tfam genpos trs rows r }).map
        (rowSlice genpos trs)) = grp.map (rowSlice genpos trs) := by
  rw [List.map_map]
  have hcomp : (rowSlice genpos trs ∘
      fun r : OrfRow =>
        ({ r with orfname := assignName tfam genpos trs rows r } : OrfRow)) =
      rowSlice genpos trs := by
    funext r
    rfl
  rw [hcomp]

/-- Rows with the same key and the same footprint receive the same name. -/
theorem assignName_eq_of_same (tfam : String) (genpos : List Nat)
    (trs : List Transcript) (rows : List OrfRow) (r1 r2 : OrfRow)
    (hg : r1.gcoord = r2.gcoord) (ha : r1.AAlen = r2.AAlen)
    (hs : rowSlice genpos trs r1 = rowSlice genpos trs r2) :
    assignName tfam genpos trs rows r1 = assignName tfam genpos trs rows r2 := by
  unfold assignName
  dsimp only
  rw [hg, ha, hs]

/-- Rows of the same (gcoord, AAlen) group with different footprints receive
different names. -/
theorem assignName_ne (tfam : String) (genpos : List Nat) (trs : List Transcript)
    (rows : List OrfRow) (r1 r2 : OrfRow) (h1 : r1 ∈ rows) (h2 : r2 ∈ rows)
    (hg : r1.gcoord = r2.gcoord) (ha : r1.AAlen = r2.AAlen)
    (hs : rowSlice genpos trs r1 ≠ rowSlice genpos trs r2) :
    assignName tfam genpos trs rows r1 ≠ assignName tfam genpos trs rows r2 := by
  have hne : r1 ≠ r2 := fun he => hs (he ▸ rfl)
  unfold assignName
  dsimp only
  rw [hg, ha]
  set grp := rows.filter
    (fun r3 => decide (r3.gcoord = r2.gcoord) && decide (r3.AAlen = r2.AAlen))
    with hgrp
  have hm1 : r1 ∈ grp := by
    rw [hgrp]
    exact List.mem_filter.mpr ⟨h1, by rw [hg, ha]; simp⟩
  have hm2 : r2 ∈ grp := by
    rw [hgrp]
    exact List.mem_filter.mpr ⟨h2, by simp⟩
  have hlen1 : grp.length ≠ 1 := length_ne_one_of_two_mem grp r1 r2 hm1 hm2 hne
  rw [if_neg hlen1, if_neg hlen1]
  set sets := grp.map (rowSlice genpos trs) with hsets
  have hs1 : rowSlice genpos trs r1 ∈ sets := by
    rw [hsets]
    exact List.mem_map.mpr ⟨r1, hm1, rfl⟩
  have hs2 : rowSlice genpos trs r2 ∈ sets := by
    rw [hsets]
    exact List.mem_map.mpr ⟨r2, hm2, rfl⟩
  have hallne : ¬ ((sets.all fun x => decide (x = sets.headD [])) = true) := by
    intro hall
    rw [List.all_eq_true] at hall
    have e1 := of_decide_eq_true (hall _ hs1)
    have e2 := of_decide_eq_true (hall _ hs2)
    exact hs (e1.trans e2.symm)
  rw [if_neg hallne, if_neg hallne]
  apply name_suffix_ne
  intro hidx
  have hf1 : rowSlice genpos trs r1 ∈ firstOccs sets := (mem_firstOccs sets _).mpr hs1
  have hf2 : rowSlice genpos trs r2 ∈ firstOccs sets := (mem_firstOccs sets _).mpr hs2
  exact hs (indexOf_inj (firstOccs sets) _ _ [] hf1 hf2 hidx)

/-- The naming pass gives a row the bare base name when its (gcoord, AAlen) group is
a singleton or all of the group's footprints coincide. -/
theorem assignName_base_of (tfam : String) (genpos : List Nat)
    (trs : List Transcript) (rows : List OrfRow) (m : OrfRow) (hm : m ∈ rows)
    (hcase : (rows.filter fun r3 => decide (r3.gcoord = m.gcoord) &&
        decide (r3.AAlen = m.AAlen)).length = 1 ∨
      ∀ m2 ∈ rows.filter fun r3 => decide (r3.gcoord = m.gcoord) &&
          decide (r3.AAlen = m.AAlen),
        rowSlice genpos trs m2 = rowSlice genpos trs m) :
    assignName tfam genpos trs rows m = name_orf tfam m.gcoord m.AAlen := by
  unfold assignName
  dsimp only
  by_cases hL : (rows.filter fun r3 => decide (r3.gcoord = m.gcoord) &&
      decide (r3.AAlen = m.AAlen)).length = 1
  · rw [if_pos hL]
  · rw [if_neg hL]
    rcases hcase with hcase | hall
    · exact absurd hcase hL
    set grp := rows.filter
      (fun r3 => decide (r3.gcoord = m.gcoord) && decide (r3.AAlen = m.AAlen))
      with hgrp
    have hmg : m ∈ grp := by
      rw [hgrp]
      exact List.mem_filter.mpr ⟨hm, by simp⟩
    have hhead : (grp.map (rowSlice genpos trs)).headD [] =
        rowSlice genpos trs m := by
      cases hgl : grp with
      | nil =>
        rw [hgl] at hmg
        cases hmg
      | cons g0 gt =>
        rw [List.map_cons]
        show rowSlice genpos trs g0 = rowSlice genpos trs m
        exact hall g0 (by rw [hgl]; exact List.mem_cons_self g0 gt)
    have hcond : ((grp.map (rowSlice genpos trs)).all
        fun x => decide (x = (grp.map (rowSlice genpos trs)).headD [])) = true := by
      rw [List.all_eq_true]
      intro x hx
      obtain ⟨m2, hm2, rfl⟩ := List.mem_map.mp hx
      rw [hhead]
      exact decide_eq_true (hall m2 hm2)
    rw [if_pos hcond]

/-- The naming pass gives a row the base name with its cluster's discovery-order
suffix when its (gcoord, AAlen) group contains a row with a different footprint. -/
theorem assignName_suffix_of (tfam : String) (genpos : List Nat)
    (trs : List Transcript) (rows : List OrfRow) (m m2 : OrfRow) (hm : m ∈ rows)
    (hm2 : m2 ∈ rows) (hkg : m2.gcoord = m.gcoord) (hka : m2.AAlen = m.AAlen)
    (hdiff : rowSlice genpos trs m2 ≠ rowSlice genpos trs m) :
    assignName tfam genpos trs rows m = name_orf tfam m.gcoord m.AAlen ++ "_" ++
      toString ((firstOccs ((rows.filter fun r3 => decide (r3.gcoord = m.gcoord) &&
        decide (r3.AAlen = m.AAlen)).map (rowSlice genpos trs))).indexOf
        (rowSlice genpos trs m)) := by
  unfold assignName
  dsimp only
  set grp := rows.filter
    (fun r3 => decide (r3.gcoord = m.gcoord) && decide (r3.AAlen = m.AAlen))
    with hgrp
  have hmg : m ∈ grp := by
    rw [hgrp]
    exact List.mem_filter.mpr ⟨hm, by simp⟩
  have hmg2 : m2 ∈ grp := by
    rw [hgrp]
    exact List.mem_filter.mpr ⟨hm2, by rw [hkg, hka]; simp⟩
  have hne : m ≠ m2 := fun he => hdiff (by rw [he])
  rw [if_neg (length_ne_one_of_two_mem grp m m2 hmg hmg2 hne)]
  have hs1 : rowSlice genpos trs m ∈ grp.map (rowSlice genpos trs) :=
    List.mem_map.mpr ⟨m, hmg, rfl⟩
  have hs2 : rowSlice genpos trs m2 ∈ grp.map (rowSlice genpos trs) :=
    List.mem_map.mpr ⟨m2, hmg2, rfl⟩
  have hallne : ¬ (((grp.map (rowSlice genpos trs)).all
      fun x => decide (x = (grp.map (rowSlice genpos trs)).headD [])) = true) := by
    intro hall
    rw [List.all_eq_true] at hall
    have e1 := of_decide_eq_true (hall _ hs1)
    have e2 := of_decide_eq_true (hall _ hs2)
    exact hdiff (e2.trans e1.symm)
  rw [if_neg hallne]

/-- For a row with a stop codon, the exact footprint determines the grouping key: the
genomic start is the envelope position at the footprint's first index and the
amino-acid length is the footprint's length divided by three, minus one. -/
theorem slice_determines_key (startB : List Char → Bool) (fam : FamilyIn)
    (hnd : fam.genpos.Nodup) (tr : Transcript) (htr : tr ∈ fam.trs)
    (hsub : tr.pos.Sublist fam.genpos) (hlen : tr.seq.length ≤ tr.pos.length)
    (htid : (fam.trs.map Transcript.tid).Nodup) (i st : Nat) (c : List Char)
    (hcand : (i, st, c) ∈ find_all_orfs startB tr.seq) (hstop : 0 < st)
    (r : OrfRow) (x : String)
    (hr : r = { mkOrfRow fam.tfam fam.chrom fam.strand tr (i, st, c) with
      orfname := x }) :
    (rowSlice fam.genpos fam.trs r).length = st - i ∧ 3 ≤ st - i ∧
    r.gcoord = fam.genpos.getD ((rowSlice fam.genpos fam.trs r).getD 0 0) 0 ∧
    r.AAlen = (rowSlice fam.genpos fam.trs r).length / 3 - 1 := by
  rw [mem_find_all_orfs] at hcand
  obtain ⟨hblen, hB, hcw, hstp⟩ := hcand
  cases hf : findStopFrom tr.seq i with
  | none =>
    rw [hf] at hstp
    simp at hstp
    omega
  | some v =>
    rw [hf] at hstp
    simp at hstp
    obtain ⟨k, hk1, hk2, -, -⟩ := findStopFrom_some tr.seq i v hf
    have hstle : st ≤ tr.seq.length := by omega
    have hstmi : 3 ≤ st - i := by omega
    obtain ⟨hc1, hc2, hc3, hc4, hc5, hc6, hc7⟩ :=
      out_row_fields fam.tfam fam.chrom fam.strand tr (i, st, c) x
    rw [← hr] at hc1 hc2 hc3 hc4 hc5 hc6 hc7
    dsimp only at hc1 hc2 hc3 hc4 hc5
    have hmlen : st ≤ (transcriptMaskIdx fam.genpos tr).length := by
      rw [maskIdx_length fam.genpos tr hnd hsub]
      omega
    have hslice : rowSlice fam.genpos fam.trs r =
        ((transcriptMaskIdx fam.genpos tr).take st).drop i := by
      rw [rowSlice_eq fam.genpos fam.trs r tr htid htr hc6, hc2, hc1]
    refine ⟨?_, hstmi, ?_, ?_⟩
    · rw [hslice]
      exact slice_length _ i st hmlen
    · rw [hc3, hslice, slice_head _ i st hmlen (by omega)]
      have hipos : i < tr.pos.length := by omega
      unfold get_genomic_coordinate
      exact (maskIdx_getD_pos fam.genpos tr hnd hsub i hipos).symm
    · rw [hc5, hslice, slice_length _ i st hmlen, if_pos hstop]

/-- Claim C1 (amended): for every well-formed family (envelope without duplicate
positions, each transcript's position list a stranded sub-sequence of the envelope and
at least as long as its sequence, distinct transcript identifiers), after
deduplication and naming: two rows that both have a stop codon and identical exact
genomic-position sets always receive the same ORF name (rows without a stop codon
have an empty position set and are named by their own genomic start, so the original
claim fails for them); two rows with the same genomic start and amino-acid length but
different position sets never receive the same name; a row whose group is a singleton
or whose group's sets all coincide receives the base name
`'{family}_{genomicStart}_{aaLen}aa'`; and a row in a group containing distinct
position sets receives the base name suffixed with the index of its cluster in
first-encounter order.  The conclusions speak of runs in which the naming pass
completes and a table is returned (`Except.ok (some out)`): when some ambiguous
(gcoord, AAlen) group mixes footprints of unequal lengths, the `np.vstack` of
src/find_orfs.py:137-138 instead raises ValueError and no table exists (see
`identify_ragged_raises`). -/
theorem claim_C1 (startB : List Char → Bool) (fam : FamilyIn) (out : List OrfRow)
    (hnd : fam.genpos.Nodup)
    (hsub : ∀ tr ∈ fam.trs, tr.pos.Sublist fam.genpos)
    (hlen : ∀ tr ∈ fam.trs, tr.seq.length ≤ tr.pos.length)
    (htid : (fam.trs.map Transcript.tid).Nodup)
    (h : identify_tfam_orfs startB fam = Except.ok (some out)) :
    (∀ r1 ∈ out, ∀ r2 ∈ out, 0 < r1.tstop → 0 < r2.tstop →
      rowSlice fam.genpos fam.trs r1 = rowSlice fam.genpos fam.trs r2 →
      r1.orfname = r2.orfname) ∧
    (∀ r1 ∈ out, ∀ r2 ∈ out, r1.gcoord = r2.gcoord → r1.AAlen = r2.AAlen →
      rowSlice fam.genpos fam.trs r1 ≠ rowSlice fam.genpos fam.trs r2 →
      r1.orfname ≠ r2.orfname) ∧
    (∀ r ∈ out,
      ((out.filter fun r2 => decide (r2.gcoord = r.gcoord) &&
          decide (r2.AAlen = r.AAlen)).length = 1 ∨
        ∀ r2 ∈ out.filter fun r2 => decide (r2.gcoord = r.gcoord) &&
            decide (r2.AAlen = r.AAlen),
          rowSlice fam.genpos fam.trs r2 = rowSlice fam.genpos fam.trs r) →
      r.orfname = name_orf fam.tfam r.gcoord r.AAlen) ∧
    (∀ r ∈ out,
      (∃ r2 ∈ out.filter fun r2 => decide (r2.gcoord = r.gcoord) &&
          decide (r2.AAlen = r.AAlen),
        rowSlice fam.genpos fam.trs r2 ≠ rowSlice fam.genpos fam.trs r) →
      r.orfname = name_orf fam.tfam r.gcoord r.AAlen ++ "_" ++
        toString ((firstOccs ((out.filter fun r2 =>
            decide (r2.gcoord = r.gcoord) && decide (r2.AAlen = r.AAlen)).map
          (rowSlice fam.genpos fam.trs))).indexOf
          (rowSlice fam.genpos fam.trs r))) := by
  have hout := identify_eq_some startB fam out h
  refine ⟨?_, ?_, ?_, ?_⟩
  · intro r1 hr1 r2 hr2 hts1 hts2 hsl
    obtain ⟨tr1, htr1, cand1, hcand1, hre1⟩ := mem_out startB fam out h r1 hr1
    obtain ⟨i1, st1, c1⟩ := cand1
    obtain ⟨tr2, htr2, cand2, hcand2, hre2⟩ := mem_out startB fam out h r2 hr2
    obtain ⟨i2, st2, c2⟩ := cand2
    have hst1 : 0 < st1 := by
      rw [hre1] at hts1
      exact hts1
    have hst2 : 0 < st2 := by
      rw [hre2] at hts2
      exact hts2
    obtain ⟨hL1, h31, hG1, hA1⟩ := slice_determines_key startB fam hnd tr1 htr1
      (hsub tr1 htr1) (hlen tr1 htr1) htid i1 st1 c1 hcand1 hst1 r1 _ hre1
    obtain ⟨hL2, h32, hG2, hA2⟩ := slice_determines_key startB fam hnd tr2 htr2
      (hsub tr2 htr2) (hlen tr2 htr2) htid i2 st2 c2 hcand2 hst2 r2 _ hre2
    have hg12 : r1.gcoord = r2.gcoord := by rw [hG1, hG2, hsl]
    have ha12 : r1.AAlen = r2.AAlen := by rw [hA1, hA2, hsl]
    have hn1 : r1.orfname = assignName fam.tfam fam.genpos fam.trs
        (famRows startB fam)
        (mkOrfRow fam.tfam fam.chrom fam.strand tr1 (i1, st1, c1)) := by
      rw [hre1]; try rfl
    have hn2 : r2.orfname = assignName fam.tfam fam.genpos fam.trs
        (famRows startB fam)
        (mkOrfRow fam.tfam fam.chrom fam.strand tr2 (i2, st2, c2)) := by
      rw [hre2]; try rfl
    have hgm1 : (mkOrfRow fam.tfam fam.chrom fam.strand tr1 (i1, st1, c1)).gcoord =
        r1.gcoord := by rw [hre1]; try rfl
    have hgm2 : (mkOrfRow fam.tfam fam.chrom fam.strand tr2 (i2, st2, c2)).gcoord =
        r2.gcoord := by rw [hre2]; try rfl
    have ham1 : (mkOrfRow fam.tfam fam.chrom fam.strand tr1 (i1, st1, c1)).AAlen =
        r1.AAlen := by rw [hre1]; try rfl
    have ham2 : (mkOrfRow fam.tfam fam.chrom fam.strand tr2 (i2, st2, c2)).AAlen =
        r2.AAlen := by rw [hre2]; try rfl
    have hsm1 : rowSlice fam.genpos fam.trs
        (mkOrfRow fam.tfam fam.chrom fam.strand tr1 (i1, st1, c1)) =
        rowSlice fam.genpos fam.trs r1 := by rw [hre1]; try rfl
    have hsm2 : rowSlice fam.genpos fam.trs
        (mkOrfRow fam.tfam fam.chrom fam.strand tr2 (i2, st2, c2)) =
        rowSlice fam.genpos fam.trs r2 := by rw [hre2]; try rfl
    rw [hn1, hn2]
    exact assignName_eq_of_same fam.tfam fam.genpos fam.trs (famRows startB fam) _ _
      (by rw [hgm1, hgm2, hg12]) (by rw [ham1, ham2, ha12])
      (by rw [hsm1, hsm2, hsl])
  · intro r1 hr1 r2 hr2 hg12 ha12 hsl
    obtain ⟨tr1, htr1, cand1, hcand1, hre1⟩ := mem_out startB fam out h r1 hr1
    obtain ⟨tr2, htr2, cand2, hcand2, hre2⟩ := mem_out startB fam out h r2 hr2
    have hm1mem : mkOrfRow fam.tfam fam.chrom fam.strand tr1 cand1 ∈
        famRows startB fam :=
      (mem_famRows startB fam _).mpr ⟨tr1, htr1, cand1, hcand1, rfl⟩
    have hm2mem : mkOrfRow fam.tfam fam.chrom fam.strand tr2 cand2 ∈
        famRows startB fam :=
      (mem_famRows startB fam _).mpr ⟨tr2, htr2, cand2, hcand2, rfl⟩
    have hn1 : r1.orfname = assignName fam.tfam fam.genpos fam.trs
        (famRows startB fam) (mkOrfRow fam.tfam fam.chrom fam.strand tr1 cand1) := by
      rw [hre1]; try rfl
    have hn2 : r2.orfname = assignName fam.tfam fam.genpos fam.trs
        (famRows startB fam) (mkOrfRow fam.tfam fam.chrom fam.strand tr2 cand2) := by
      rw [hre2]; try rfl
    have hgm1 : (mkOrfRow fam.tfam fam.chrom fam.strand tr1 cand1).gcoord =
        r1.gcoord := by rw [hre1]; try rfl
    have hgm2 : (mkOrfRow fam.tfam fam.chrom fam.strand tr2 cand2).gcoord =
        r2.gcoord := by rw [hre2]; try rfl
    have ham1 : (mkOrfRow fam.tfam fam.chrom fam.strand tr1 cand1).AAlen =
        r1.AAlen := by rw [hre1]; try rfl
    have ham2 : (mkOrfRow fam.tfam fam.chrom fam.strand tr2 cand2).AAlen =
        r2.AAlen := by rw [hre2]; try rfl
    have hsm1 : rowSlice fam.genpos fam.trs
        (mkOrfRow fam.tfam fam.chrom fam.strand tr1 cand1) =
        rowSlice fam.genpos fam.trs r1 := by rw [hre1]; try rfl
    have hsm2 : rowSlice fam.genpos fam.trs
        (mkOrfRow fam.tfam fam.chrom fam.strand tr2 cand2) =
        rowSlice fam.genpos fam.trs r2 := by rw [hre2]; try rfl
    rw [hn1, hn2]
    exact assignName_ne fam.tfam fam.genpos fam.trs (famRows startB fam) _ _
      hm1mem hm2mem (by rw [hgm1, hgm2, hg12]) (by rw [ham1, ham2, ha12])
      (by rw [hsm1, hsm2]; exact hsl)
  · intro r hr hcase
    obtain ⟨tr, htr, cand, hcand, hre⟩ := mem_out startB fam out h r hr
    have hmmem : mkOrfRow fam.tfam fam.chrom fam.strand tr cand ∈
        famRows startB fam :=
      (mem_famRows startB fam _).mpr ⟨tr, htr, cand, hcand, rfl⟩
    have hn : r.orfname = assignName fam.tfam fam.genpos fam.trs
        (famRows startB fam) (mkOrfRow fam.tfam fam.chrom fam.strand tr cand) := by
      rw [hre]; try rfl
    have hgm : (mkOrfRow fam.tfam fam.chrom fam.strand tr cand).gcoord =
        r.gcoord := by rw [hre]; try rfl
    have ham : (mkOrfRow fam.tfam fam.chrom fam.strand tr cand).AAlen =
        r.AAlen := by rw [hre]; try rfl
    have hsm : rowSlice fam.genpos fam.trs
        (mkOrfRow fam.tfam fam.chrom fam.strand tr cand) =
        rowSlice fam.genpos fam.trs r := by rw [hre]; try rfl
    have hbridge : (out.filter fun r2 => decide (r2.gcoord = r.gcoord) &&
        decide (r2.AAlen = r.AAlen)) =
        ((famRows startB fam).filter fun r2 => decide (r2.gcoord = r.gcoord) &&
          decide (r2.AAlen = r.AAlen)).map fun r0 =>
            { r0 with orfname := assignName fam.tfam fam.genpos fam.trs (famRows startB fam) r0 } := by
      rw [hout]
      exact out_filter_key fam.tfam fam.genpos fam.trs (famRows startB fam)
        r.gcoord r.AAlen
    rw [hn, ← hgm, ← ham]
    apply assignName_base_of fam.tfam fam.genpos fam.trs (famRows startB fam) _ hmmem
    rw [hgm, ham, hsm]
    rcases hcase with hcase | hcase
    · left
      rw [hbridge, List.length_map] at hcase
      exact hcase
    · right
      intro m2 hm2
      have hrn2 : ({ m2 with orfname := assignName fam.tfam fam.genpos fam.trs (famRows startB fam) m2 } : OrfRow) ∈
          out.filter fun r2 => decide (r2.gcoord = r.gcoord) &&
            decide (r2.AAlen = r.AAlen) := by
        rw [hbridge]
        exact List.mem_map.mpr ⟨m2, hm2, rfl⟩
      have := hcase _ hrn2
      rw [rowSlice_rename] at this
      exact this
  · intro r hr hcase
    obtain ⟨tr, htr, cand, hcand, hre⟩ := mem_out startB fam out h r hr
    have hmmem : mkOrfRow fam.tfam fam.chrom fam.strand tr cand ∈
        famRows startB fam :=
      (mem_famRows startB fam _).mpr ⟨tr, htr, cand, hcand, rfl⟩
    have hn : r.orfname = assignName fam.tfam fam.genpos fam.trs
        (famRows startB fam) (mkOrfRow fam.tfam fam.chrom fam.strand tr cand) := by
      rw [hre]; try rfl
    have hgm : (mkOrfRow fam.tfam fam.chrom fam.strand tr cand).gcoord =
        r.gcoord := by rw [hre]; try rfl
    have ham : (mkOrfRow fam.tfam fam.chrom fam.strand tr cand).AAlen =
        r.AAlen := by rw [hre]; try rfl
    have hsm : rowSlice fam.genpos fam.trs
        (mkOrfRow fam.tfam fam.chrom fam.strand tr cand) =
        rowSlice fam.genpos fam.trs r := by rw [hre]; try rfl
    have hbridge : (out.filter fun r2 => decide (r2.gcoord = r.gcoord) &&
        decide (r2.AAlen = r.AAlen)) =
        ((famRows startB fam).filter fun r2 => decide (r2.gcoord = r.gcoord) &&
          decide (r2.AAlen = r.AAlen)).map fun r0 =>
            { r0 with orfname := assignName fam.tfam fam.genpos fam.trs (famRows startB fam) r0 } := by
      rw [hout]
      exact out_filter_key fam.tfam fam.genpos fam.trs (famRows startB fam)
        r.gcoord r.AAlen
    obtain ⟨r2, hr2mem, hr2ne⟩ := hcase
    rw [hbridge] at hr2mem
    obtain ⟨m2, hm2mem, hre2⟩ := List.mem_map.mp hr2mem
    have hm2rows : m2 ∈ famRows startB fam := (List.mem_filter.mp hm2mem).1
    have hm2key := (List.mem_filter.mp hm2mem).2
    rw [Bool.and_eq_true] at hm2key
    have hm2g : m2.gcoord = r.gcoord := of_decide_eq_true hm2key.1
    have hm2a : m2.AAlen = r.AAlen := of_decide_eq_true hm2key.2
    have hm2slice : rowSlice fam.genpos fam.trs m2 ≠
        rowSlice fam.genpos fam.trs (mkOrfRow fam.tfam fam.chrom fam.strand tr cand) := by
      rw [hsm]
      intro heq
      apply hr2ne
      rw [← hre2, rowSlice_rename]
      exact heq
    rw [hn, hbridge, sets_map_rename, ← hgm, ← ham, ← hsm]
    exact assignName_suffix_of fam.tfam fam.genpos fam.trs (famRows startB fam)
      (mkOrfRow fam.tfam fam.chrom fam.strand tr cand) m2 hmmem hm2rows
      (by rw [hm2g, hgm]) (by rw [hm2a, ham]) hm2slice

/-- A family on which the naming pass cannot complete: transcript `ta` (positions
10, 11, 12, sequence TAC) yields the stopless candidate (0, 0, TAC) with footprint
length 0, transcript `tb` (positions 10, 13, 14, sequence TAG) yields the stop
candidate (0, 3, TAG) with footprint length 3, and both land in the ambiguous group
(gcoord 10, AAlen 0). -/
def famRagged : FamilyIn :=
  ⟨"fr", "c", '+', [10, 11, 12, 13, 14],
    [⟨"ta", [10, 11, 12], "TAC".toList, none⟩,
     ⟨"tb", [10, 13, 14], "TAG".toList, none⟩]⟩

/-- On `famRagged` the `np.vstack` of src/find_orfs.py:137-138 receives footprint
slices of unequal lengths and raises ValueError: the family resolver returns no
table. -/
theorem identify_ragged_raises :
    identify_tfam_orfs (startMatch [['T', 'A', 'C'], ['T', 'A', 'G']]) famRagged =
      Except.error "ValueError" := by
  rfl

/-- Two transcripts, each yielding one candidate with no stop codon, at different
genomic starts: both rows have the empty footprint `[tcoord:0)`, yet their names
differ. -/
def famC1 : FamilyIn :=
  ⟨"f", "c", '+', [10, 20],
    [⟨"t1", [10], "ATG".toList, none⟩, ⟨"t2", [20], "ATG".toList, none⟩]⟩

/-- The output rows of `famC1` under the default ATG pattern. -/
def outC1 : List OrfRow := outOf (identify_tfam_orfs startATG famC1)

/-- Claim C1 counterexample: two rows whose exact genomic-position sets (the
presence-mask positions sliced at `[tcoord, tstop)`) are identical — both empty,
because neither candidate has a stop codon — but whose ORF names differ, refuting
"two rows whose exact genomic-position sets are identical always receive the same
ORF name" as stated. -/
theorem claim_C1_counterexample :
    identify_tfam_orfs startATG famC1 = Except.ok (some outC1) ∧
    ∃ r1 ∈ outC1, ∃ r2 ∈ outC1,
      rowSlice famC1.genpos famC1.trs r1 = rowSlice famC1.genpos famC1.trs r2 ∧
      r1.orfname ≠ r2.orfname := by decide

/-- A well-formed family with two transcripts carrying the identical spliced ORF. -/
def famW : FamilyIn :=
  ⟨"fw", "c", '+', [100, 101, 102, 103, 104, 105, 106, 107, 108],
    [⟨"w1", [100, 101, 102, 103, 104, 105, 106, 107, 108], "ATGAAATAG".toList, none⟩,
     ⟨"w2", [100, 101, 102, 103, 104, 105, 106, 107, 108], "ATGAAATAG".toList, none⟩]⟩

/-- The output rows of `famW` under the default ATG pattern. -/
def outW : List OrfRow := outOf (identify_tfam_orfs startATG famW)

/-- The row contributed by transcript w1. -/
def rowW1 : OrfRow := outW.headD (mkOrfRow "" "" '+' ⟨"", [], [], none⟩ (0, 0, []))

/-- The row contributed by transcript w2. -/
def rowW2 : OrfRow :=
  (outW.drop 1).headD (mkOrfRow "" "" '+' ⟨"", [], [], none⟩ (0, 0, []))

theorem claim_C1_witness : rowW1.orfname = rowW2.orfname :=
  (claim_C1 startATG famW outW (by decide) (by decide) (by decide) (by decide)
      (by decide)).1
    rowW1 (by decide) rowW2 (by decide) (by decide) (by decide) (by decide)

end FindOrfs
